import Mathlib

/-!
Verification of the pydoom world simulation: doors, walkability and room
queries (src/game/world.py), combat update (src/game/game.py), the A*
pathfinder (src/game/pathfinding.py) and the wall raycaster's distance
computation (src/game/wall_renderer.py).

Python floats are modelled as exact rationals, machine ints as ℤ/ℕ.
-/

namespace PyDoom

/-- Python `int(q)` on a float: truncation toward zero. -/
def pytrunc (q : ℚ) : ℤ := if q < 0 then -⌊-q⌋ else ⌊q⌋

theorem pytrunc_of_nonneg {q : ℚ} (h : 0 ≤ q) : pytrunc q = ⌊q⌋ := by
  simp [pytrunc, not_lt.mpr h]

theorem pytrunc_intCast (n : ℤ) : pytrunc (n : ℚ) = n := by
  rcases lt_or_le n 0 with h | h
  · have : ((n : ℚ)) < 0 := by exact_mod_cast h
    simp [pytrunc, this]
    rw [show (-(n:ℚ)) = ((-n : ℤ) : ℚ) by push_cast; ring, Int.floor_intCast]
    ring
  · have : (0:ℚ) ≤ (n : ℚ) := by exact_mod_cast h
    rw [pytrunc_of_nonneg this, Int.floor_intCast]

/-- Tile codes. Modelled from the spec: `TILE_EMPTY`/`TILE_WALL`/`TILE_DOOR` are
imported by src/game/world.py from game.config, where they are not present in
the provided src/ snapshot; the numeric values 0/1/2 are fixed by the spec's
grid examples (a 1x3 grid `[0,2,0]` with a door at x=1, walls written 1) and by
the repository tests. -/
def TILE_EMPTY : ℕ := 0

/-- Wall tile code (see `TILE_EMPTY`). -/
def TILE_WALL : ℕ := 1

/-- Door tile code (see `TILE_EMPTY`). -/
def TILE_DOOR : ℕ := 2

/-- Player position as consumed by `Door.update` / `World.update_doors`
(src/game/player.py stores `x` and `y`; only those fields are read by the world
code modelled here). -/
structure Player where
  x : ℚ
  y : ℚ
deriving DecidableEq

/-- Door timing configuration. Modelled from the spec: `DOOR_OPEN_DISTANCE`,
`DOOR_CLOSE_DELAY` and `DOOR_ANIM_DURATION` are imported by
src/game/world.py from game.config but are absent from the provided
src/game/config.py, and the spec names them only symbolically (`R`,
`close_delay`, `anim_duration`), so they are kept as parameters. -/
structure DoorConfig where
  openDistance : ℚ
  closeDelay : ℚ
  animDuration : ℚ
deriving DecidableEq

/-- Door entity (src/game/world.py, class Door, lines 19-33). `state` is one of
"closed", "opening", "open", "closing". -/
structure Door where
  x : ℤ
  y : ℤ
  state : String
  timer : ℚ
  progress : ℚ
  slide_axis : String
  slide_dir : ℤ
deriving DecidableEq

/-- Door.__init__ (src/game/world.py lines 22-33). -/
def Door.init (x y : ℤ) : Door :=
  { x := x, y := y, state := "closed", timer := 0, progress := 0,
    slide_axis := "x", slide_dir := 1 }

/-- Door.update (src/game/world.py lines 35-78): the auto-open/close state
machine driven by the squared distance from the player to the door center. -/
def Door.update (cfg : DoorConfig) (player : Player) (dt : ℚ) (d : Door) : Door :=
  let dx := player.x - (d.x + 1/2)
  let dy := player.y - (d.y + 1/2)
  let dist2 := dx * dx + dy * dy
  if d.state = "closed" then
    if dist2 ≤ cfg.openDistance * cfg.openDistance then
      { d with state := "opening", timer := 0 }
    else d
  else if d.state = "opening" then
    let p := min 1 (d.progress + dt / cfg.animDuration)
    if 1 ≤ p then { d with progress := p, state := "open", timer := 0 }
    else { d with progress := p }
  else if d.state = "open" then
    if dist2 ≤ cfg.openDistance * cfg.openDistance then { d with timer := 0 }
    else
      let t := d.timer + dt
      if cfg.closeDelay ≤ t then { d with timer := t, state := "closing" }
      else { d with timer := t }
  else if d.state = "closing" then
    if dist2 ≤ cfg.openDistance * cfg.openDistance then { d with state := "opening" }
    else
      let p := max 0 (d.progress - dt / cfg.animDuration)
      if p ≤ 0 then { d with progress := p, state := "closed", timer := 0 }
      else { d with progress := p }
  else d

/-- Runs a door through a sequence of `(player, dt)` update events. -/
def runDoor (cfg : DoorConfig) (d : Door) (evs : List (Player × ℚ)) : Door :=
  evs.foldl (fun d ev => Door.update cfg ev.1 ev.2 d) d

/-- The door state/progress relation that actually holds on every reachable
door: `closed` and `open` pin progress to 0 resp. 1, but `opening` admits the
closed boundary value 0 (just after the closed-to-opening transition) and the
value 1 (re-opening caught exactly at full closure is impossible, but a
closing door with progress 1 re-approached flips to opening), and `closing`
admits progress 1 (just after the open-to-closing transition). -/
def DoorInv (d : Door) : Prop :=
  (d.state = "closed" → d.progress = 0) ∧
  (d.state = "open" → d.progress = 1) ∧
  (d.state = "opening" → 0 ≤ d.progress ∧ d.progress ≤ 1) ∧
  (d.state = "closing" → 0 < d.progress ∧ d.progress ≤ 1) ∧
  (d.state = "closed" ∨ d.state = "opening" ∨ d.state = "open" ∨ d.state = "closing")

instance (d : Door) : Decidable (DoorInv d) := by
  unfold DoorInv; infer_instance

theorem doorInv_init (x y : ℤ) : DoorInv (Door.init x y) := by
  refine ⟨fun _ => rfl, fun h => ?_, fun h => ?_, fun h => ?_, Or.inl rfl⟩ <;>
    simp [Door.init] at h

theorem doorInv_update (cfg : DoorConfig) (hA : 0 < cfg.animDuration)
    (player : Player) (dt : ℚ) (hdt : 0 ≤ dt) (d : Door) (hd : DoorInv d) :
    DoorInv (Door.update cfg player dt d) := by
  obtain ⟨hc, ho, hop, hcl, hst⟩ := hd
  have hdiv : 0 ≤ dt / cfg.animDuration := div_nonneg hdt (le_of_lt hA)
  have nOpCl : ("opening" : String) ≠ "closed" := by decide
  have nOpOp : ("opening" : String) ≠ "open" := by decide
  have nOpC : ("opening" : String) ≠ "closing" := by decide
  have nOCl : ("open" : String) ≠ "closed" := by decide
  have nOOp : ("open" : String) ≠ "opening" := by decide
  have nOC : ("open" : String) ≠ "closing" := by decide
  have nCCl : ("closing" : String) ≠ "closed" := by decide
  have nCOp : ("closing" : String) ≠ "opening" := by decide
  have nCO : ("closing" : String) ≠ "open" := by decide
  have nClO : ("closed" : String) ≠ "open" := by decide
  have nClOp : ("closed" : String) ≠ "opening" := by decide
  have nClC : ("closed" : String) ≠ "closing" := by decide
  simp only [Door.update]
  split_ifs with h1 h2 h3 h4 h5 h6 h7 h8 h9 h10
  · -- closed, player in range: becomes opening, progress still 0
    have hp := hc h1
    exact ⟨fun hs => absurd hs nOpCl, fun hs => absurd hs nOpOp,
      fun _ => ⟨hp.ge, by rw [hp]; norm_num⟩,
      fun hs => absurd hs nOpC, Or.inr (Or.inl rfl)⟩
  · -- closed, out of range: unchanged
    exact ⟨hc, ho, hop, hcl, hst⟩
  · -- opening, progress reached 1: becomes open with progress = min 1 _ = 1
    exact ⟨fun hs => absurd hs nOCl,
      fun _ => le_antisymm (min_le_left _ _) h4,
      fun hs => absurd hs nOOp, fun hs => absurd hs nOC,
      Or.inr (Or.inr (Or.inl rfl))⟩
  · -- opening, still animating: state stays d.state = "opening"
    have h01 := hop h3
    exact ⟨fun hs => absurd (h3.symm.trans hs) nOpCl,
      fun hs => absurd (h3.symm.trans hs) nOpOp,
      fun _ => ⟨le_min (by norm_num) (by linarith [h01.1]), min_le_left _ _⟩,
      fun hs => absurd (h3.symm.trans hs) nOpC, Or.inr (Or.inl h3)⟩
  · -- open, player in range: timer reset, state unchanged
    exact ⟨fun hs => hc hs, fun hs => ho hs, fun hs => hop hs, fun hs => hcl hs, hst⟩
  · -- open, idle long enough: becomes closing with progress = 1
    exact ⟨fun hs => absurd hs nCCl, fun hs => absurd hs nCO,
      fun hs => absurd hs nCOp,
      fun _ => ⟨by rw [ho h5]; norm_num, (ho h5).le⟩,
      Or.inr (Or.inr (Or.inr rfl))⟩
  · -- open, still waiting for close delay
    exact ⟨fun hs => hc hs, fun hs => ho hs, fun hs => hop hs, fun hs => hcl hs, hst⟩
  · -- closing, player returned: reopen keeping progress
    have h01 := hcl h8
    exact ⟨fun hs => absurd hs nOpCl, fun hs => absurd hs nOpOp,
      fun _ => ⟨h01.1.le, h01.2⟩,
      fun hs => absurd hs nOpC, Or.inr (Or.inl rfl)⟩
  · -- closing, progress reached 0: becomes closed with progress = max 0 _ = 0
    exact ⟨fun _ => le_antisymm h10 (le_max_left _ _),
      fun hs => absurd hs nClO, fun hs => absurd hs nClOp,
      fun hs => absurd hs nClC, Or.inl rfl⟩
  · -- closing, still animating: state stays d.state = "closing"
    have h01 := hcl h8
    exact ⟨fun hs => absurd (h8.symm.trans hs) nCCl,
      fun hs => absurd (h8.symm.trans hs) nCO,
      fun hs => absurd (h8.symm.trans hs) nCOp,
      fun _ => ⟨lt_of_not_le h10, max_le (by norm_num) (by linarith [h01.2])⟩,
      Or.inr (Or.inr (Or.inr h8))⟩
  · -- state not one of the four strings: unchanged
    exact ⟨hc, ho, hop, hcl, hst⟩

theorem doorInv_runDoor (cfg : DoorConfig) (hA : 0 < cfg.animDuration)
    (evs : List (Player × ℚ)) (hevs : ∀ ev ∈ evs, 0 ≤ ev.2)
    (d : Door) (hd : DoorInv d) : DoorInv (runDoor cfg d evs) := by
  induction evs generalizing d with
  | nil => exact hd
  | cons ev rest ih =>
    exact ih (fun e he => hevs e (List.mem_cons_of_mem _ he))
      _ (doorInv_update cfg hA ev.1 ev.2 (hevs ev (List.mem_cons_self _ _)) d hd)

/-- C2, counterexample. One `Door.update` from the initial closed door with the
player at the door center (with sample timing constants 1, 5, 1) produces a
reachable door with `state = "opening"` while `progress = 0`, refuting both
"`progress == 0` only if `state == 'closed'`" and "`opening` implies
`0 < progress`" from the claimed invariant. -/
theorem c2_counterexample :
    (Door.update ⟨1, 5, 1⟩ ⟨1/2, 1/2⟩ (1/100) (Door.init 0 0)).state = "opening" ∧
    (Door.update ⟨1, 5, 1⟩ ⟨1/2, 1/2⟩ (1/100) (Door.init 0 0)).progress = 0 ∧
    ¬ ((Door.update ⟨1, 5, 1⟩ ⟨1/2, 1/2⟩ (1/100) (Door.init 0 0)).state = "closed") := by
  with_unfolding_all decide

/-- C2, amended. For every timing configuration with a positive animation
duration and every finite sequence of updates with nonnegative `dt` from the
initial door, the reachable door satisfies: `closed` implies `progress = 0`,
`open` implies `progress = 1`, `opening` implies `0 ≤ progress ≤ 1`, and
`closing` implies `0 < progress ≤ 1` (the reverse implications and the strict
bounds of the original claim fail at the state-transition boundaries). -/
theorem c2_amended (cfg : DoorConfig) (hA : 0 < cfg.animDuration)
    (x y : ℤ) (evs : List (Player × ℚ)) (hevs : ∀ ev ∈ evs, 0 ≤ ev.2) :
    DoorInv (runDoor cfg (Door.init x y) evs) :=
  doorInv_runDoor cfg hA evs hevs _ (doorInv_init x y)

/-- C2, witness for the amended theorem at concrete inputs. -/
theorem c2_amended_witness :
    DoorInv (runDoor ⟨1, 5, 1⟩ (Door.init 0 0) [(⟨1/2, 1/2⟩, 1/100)]) :=
  c2_amended ⟨1, 5, 1⟩ (by norm_num) 0 0 _ (by
    intro ev hev
    simp only [List.mem_singleton] at hev
    subst hev
    norm_num)

/-- Python list indexing `m[y][x]` for the tile grid, used only after bounds
checks (so the default value is never observed). -/
def tileAt (m : List (List ℕ)) (x y : ℤ) : ℕ :=
  (m.getD y.toNat []).getD x.toNat 0

/-- Python list indexing `room_map[y][x]`, used only after bounds checks. -/
def rmAt (rm : List (List ℤ)) (x y : ℤ) : ℤ :=
  (rm.getD y.toNat []).getD x.toNat (-1)

/-- Python assignment `room_map[y][x] = v`. -/
def setCell (rm : List (List ℤ)) (x y : ℤ) (v : ℤ) : List (List ℤ) :=
  rm.set y.toNat ((rm.getD y.toNat []).set x.toNat v)

/-- World state (src/game/world.py, class World): the tile grid, its
dimensions, the door list and the flood-filled room index. The JSON-loading
branch of `World.__init__` (powerups, sprites, enemy spawns) is out of scope
here; worlds are built from an explicit `map_grid` as in the repository tests. -/
structure World where
  map : List (List ℕ)
  width : ℕ
  height : ℕ
  doors : List Door
  room_map : List (List ℤ)
  num_rooms : ℤ
deriving DecidableEq

/-- Door creation scan of `World.__init__` (src/game/world.py lines 216-219):
one `Door(x, y)` for every `TILE_DOOR` cell, in row-major order. -/
def scanDoors (m : List (List ℕ)) : List Door :=
  (m.enum.map (fun row =>
    row.2.enum.filterMap (fun c =>
      if c.2 = TILE_DOOR then some (Door.init (c.1 : ℤ) (row.1 : ℤ)) else none))).join

/-- Slide-orientation assignment of `World.__init__` (src/game/world.py lines
221-236): prefer +x, then -x, then +y, defaulting to -y. -/
def setSlide (m : List (List ℕ)) (w h : ℕ) (d : Door) : Door :=
  if d.x + 1 < (w : ℤ) ∧ tileAt m (d.x + 1) d.y = TILE_EMPTY then
    { d with slide_axis := "x", slide_dir := 1 }
  else if 0 ≤ d.x - 1 ∧ tileAt m (d.x - 1) d.y = TILE_EMPTY then
    { d with slide_axis := "x", slide_dir := -1 }
  else if d.y + 1 < (h : ℤ) ∧ tileAt m d.x (d.y + 1) = TILE_EMPTY then
    { d with slide_axis := "y", slide_dir := 1 }
  else
    { d with slide_axis := "y", slide_dir := -1 }

/-- Inner stack loop of the room flood fill (src/game/world.py lines 249-264).
Python's `stack.pop()` takes the most recently pushed cell; the stack is
modelled with its top at the list head, so `extend [a, b, c, d]` becomes
`d :: c :: b :: a :: rest`. The loop is fueled; each marked cell pushes four
neighbours and cells are never unmarked, so `4*w*h + 2` pops always suffice. -/
def floodLoop (m : List (List ℕ)) (w h : ℕ) (roomId : ℤ) :
    ℕ → List (ℤ × ℤ) → List (List ℤ) → List (List ℤ)
  | 0, _, rm => rm
  | _ + 1, [], rm => rm
  | fuel + 1, c :: rest, rm =>
    if c.1 < 0 ∨ c.2 < 0 ∨ (w : ℤ) ≤ c.1 ∨ (h : ℤ) ≤ c.2 ∨
        tileAt m c.1 c.2 ≠ TILE_EMPTY ∨ rmAt rm c.1 c.2 ≠ -1 then
      floodLoop m w h roomId fuel rest rm
    else
      floodLoop m w h roomId fuel
        ((c.1, c.2 - 1) :: (c.1, c.2 + 1) :: (c.1 - 1, c.2) :: (c.1 + 1, c.2) :: rest)
        (setCell rm c.1 c.2 roomId)

/-- Row-major seed order of the flood fill (src/game/world.py lines 242-243). -/
def floodSeeds (w h : ℕ) : List (ℤ × ℤ) :=
  ((List.range h).map (fun ry => (List.range w).map (fun rx => ((rx : ℤ), (ry : ℤ))))).join

/-- Full room flood fill of `World.__init__` (src/game/world.py lines 238-266):
returns the room map and `num_rooms`. -/
def floodAll (m : List (List ℕ)) (w h : ℕ) : List (List ℤ) × ℤ :=
  (floodSeeds w h).foldl
    (fun acc c =>
      if tileAt m c.1 c.2 ≠ TILE_EMPTY ∨ rmAt acc.1 c.1 c.2 ≠ -1 then acc
      else (floodLoop m w h acc.2 (4 * w * h + 2) [c] acc.1, acc.2 + 1))
    (List.replicate h (List.replicate w (-1 : ℤ)), 0)

/-- World.__init__ with an explicit `map_grid` (src/game/world.py lines 84-92
and 213-266): dimensions, door scan, slide orientation and room flood fill. -/
def World.ofGrid (grid : List (List ℕ)) : World :=
  let height := grid.length
  let width := (grid.headD []).length
  let fa := floodAll grid width height
  { map := grid, width := width, height := height,
    doors := (scanDoors grid).map (setSlide grid width height),
    room_map := fa.1, num_rooms := fa.2 }

/-- World.is_wall (src/game/world.py lines 277-296). Out-of-bounds coordinates
are walls; a cell adjacent to a partially open door in its slide direction is
a wall; a door cell is a wall unless its door's state is exactly "open";
otherwise only `TILE_WALL` cells are walls. -/
def World.is_wall (w : World) (x y : ℚ) : Bool :=
  if x < 0 ∨ y < 0 ∨ (w.width : ℚ) ≤ x ∨ (w.height : ℚ) ≤ y then true
  else
    let tx := pytrunc x
    let ty := pytrunc y
    if w.doors.any (fun d =>
        decide (0 < d.progress) && decide (d.progress < 1) &&
          (if d.slide_axis = "x" then
            decide (tx = d.x + d.slide_dir) && decide (ty = d.y)
          else
            decide (tx = d.x) && decide (ty = d.y + d.slide_dir))) then
      true
    else
      let tile := tileAt w.map tx ty
      if tile = TILE_DOOR then
        match w.doors.find? (fun d => decide (d.x = tx) && decide (d.y = ty)) with
        | some d => decide (d.state ≠ "open")
        | none => true
      else decide (tile = TILE_WALL)

/-- World.get_room_id (src/game/world.py lines 298-320). Note that the
Python code truncates the coordinates with `int()` before its bounds check. -/
def World.get_room_id (w : World) (x y : ℚ) : Option ℤ :=
  let ix := pytrunc x
  let iy := pytrunc y
  if ix < 0 ∨ iy < 0 ∨ (w.width : ℤ) ≤ ix ∨ (w.height : ℤ) ≤ iy then none
  else
    let room := rmAt w.room_map ix iy
    if 0 ≤ room then some room
    else if tileAt w.map ix iy = TILE_DOOR then
      w.doors.findSome? (fun d =>
        if d.x = ix ∧ d.y = iy ∧ d.state = "open" then
          ([((0 : ℤ), (-1 : ℤ)), (1, 0), (0, 1), (-1, 0)]).findSome? (fun dd =>
            let nx := ix + dd.1
            let ny := iy + dd.2
            if 0 ≤ nx ∧ nx < (w.width : ℤ) ∧ 0 ≤ ny ∧ ny < (w.height : ℤ) then
              if 0 ≤ rmAt w.room_map nx ny then some (rmAt w.room_map nx ny) else none
            else none)
        else none)
    else none

/-- World.update_doors (src/game/world.py lines 272-275). -/
def World.update_doors (cfg : DoorConfig) (w : World) (player : Player) (dt : ℚ) : World :=
  { w with doors := w.doors.map (Door.update cfg player dt) }

/-- Repeated `update_doors` calls with a fixed player position. -/
def runDoors (cfg : DoorConfig) (player : Player) (dts : List ℚ) (w : World) : World :=
  dts.foldl (fun w dt => w.update_doors cfg player dt) w

theorem door_update_closed_in_range (cfg : DoorConfig) (p : Player) (dt : ℚ)
    (d : Door) (hd : d.state = "closed")
    (hin : (p.x - (d.x + 1/2)) * (p.x - (d.x + 1/2)) +
        (p.y - (d.y + 1/2)) * (p.y - (d.y + 1/2)) ≤
      cfg.openDistance * cfg.openDistance) :
    Door.update cfg p dt d = { d with state := "opening", timer := 0 } := by
  simp only [Door.update]
  split_ifs
  rfl

theorem door_update_opening_reach (cfg : DoorConfig) (p : Player) (dt : ℚ)
    (d : Door) (hd : d.state = "opening")
    (hone : 1 ≤ d.progress + dt / cfg.animDuration) :
    Door.update cfg p dt d = { d with progress := 1, state := "open", timer := 0 } := by
  have hmin : min 1 (d.progress + dt / cfg.animDuration) = 1 := min_eq_left hone
  have hnc : ¬ d.state = "closed" := by rw [hd]; decide
  simp only [Door.update]
  split_ifs with h1
  · rw [hmin]
  · exact absurd hmin.ge h1

/-- C3: on the 1x3 grid `[[0,2,0]]` the door cell (1,0) initially blocks
(`is_wall` true, door closed); with the player moved to (1.5, 0.5) there is a
schedule of `update_doors` calls with nonnegative time steps totalling exactly
`anim_duration` (an initiating call with `dt = 0`, then one of `anim_duration`,
as in the repository's own door test) after which the door has state "open",
progress 1, and `is_wall (1,0)` is false. -/
theorem c3_scenario (cfg : DoorConfig) (hA : 0 < cfg.animDuration) :
    (World.ofGrid [[0, 2, 0]]).is_wall 1 0 = true ∧
    (World.ofGrid [[0, 2, 0]]).doors.map Door.state = ["closed"] ∧
    ∃ dts : List ℚ, (∀ dt ∈ dts, 0 ≤ dt) ∧ dts.sum = cfg.animDuration ∧
      (runDoors cfg ⟨3/2, 1/2⟩ dts (World.ofGrid [[0, 2, 0]])).doors.map Door.state =
        ["open"] ∧
      (runDoors cfg ⟨3/2, 1/2⟩ dts (World.ofGrid [[0, 2, 0]])).doors.map Door.progress =
        [1] ∧
      (runDoors cfg ⟨3/2, 1/2⟩ dts (World.ofGrid [[0, 2, 0]])).is_wall 1 0 = false := by
  have hdoors : (World.ofGrid [[0, 2, 0]]).doors = [Door.init 1 0] := by
    with_unfolding_all decide
  refine ⟨by with_unfolding_all decide, by rw [hdoors]; rfl,
    [0, cfg.animDuration], ?_, by simp, ?_⟩
  · intro dt hdt
    rcases List.mem_pair.mp hdt with h | h
    · subst h; exact le_rfl
    · subst h; exact hA.le
  · have step1 : Door.update cfg ⟨3/2, 1/2⟩ 0 (Door.init 1 0) =
        { Door.init 1 0 with state := "opening", timer := 0 } := by
      apply door_update_closed_in_range
      · rfl
      · have hz : ((3:ℚ)/2 - (((1:ℤ) : ℚ) + 1/2)) * ((3:ℚ)/2 - (((1:ℤ) : ℚ) + 1/2)) +
            ((1:ℚ)/2 - (((0:ℤ) : ℚ) + 1/2)) * ((1:ℚ)/2 - (((0:ℤ) : ℚ) + 1/2)) = 0 := by
          norm_num
        rw [show ((⟨3/2, 1/2⟩ : Player).x - ((Door.init 1 0).x + 1/2)) *
              ((⟨3/2, 1/2⟩ : Player).x - ((Door.init 1 0).x + 1/2)) +
              ((⟨3/2, 1/2⟩ : Player).y - ((Door.init 1 0).y + 1/2)) *
              ((⟨3/2, 1/2⟩ : Player).y - ((Door.init 1 0).y + 1/2)) = 0 from hz]
        exact mul_self_nonneg _
    have step2 : Door.update cfg ⟨3/2, 1/2⟩ cfg.animDuration
          { Door.init 1 0 with state := "opening", timer := 0 } =
        { Door.init 1 0 with progress := 1, state := "open", timer := 0 } := by
      apply door_update_opening_reach
      · rfl
      · show (1:ℚ) ≤ 0 + cfg.animDuration / cfg.animDuration
        rw [div_self hA.ne']
        norm_num
    have hw1 : (World.ofGrid [[0, 2, 0]]).update_doors cfg ⟨3/2, 1/2⟩ 0 =
        { World.ofGrid [[0, 2, 0]] with
            doors := [{ Door.init 1 0 with state := "opening", timer := 0 }] } := by
      rw [World.update_doors, hdoors]
      simp only [List.map_cons, List.map_nil, step1]
    have hgoal :
        runDoors cfg ⟨3/2, 1/2⟩ [0, cfg.animDuration] (World.ofGrid [[0, 2, 0]]) =
          { World.ofGrid [[0, 2, 0]] with
              doors := [{ Door.init 1 0 with progress := 1, state := "open", timer := 0 }] } := by
      show ((World.ofGrid [[0, 2, 0]]).update_doors cfg ⟨3/2, 1/2⟩ 0).update_doors cfg
          ⟨3/2, 1/2⟩ cfg.animDuration = _
      rw [hw1, World.update_doors]
      dsimp only
      rw [List.map_cons, List.map_nil, step2]
    rw [hgoal]
    refine ⟨rfl, rfl, ?_⟩
    with_unfolding_all decide

/-- C5: evaluation of the code at the failing input. On the 1x1 grid `[[0]]`
the coordinate (-0.5, 0.5) is out of bounds (and `is_wall` treats it as such),
yet `get_room_id` truncates `-0.5` toward zero to cell 0 before its bounds
check and returns room id 0 instead of none, contradicting its own docstring
("None if out of bounds") and the claim. -/
theorem c5_get_room_id_bug :
    (World.ofGrid [[0]]).get_room_id (-1/2) (1/2) = some 0 ∧
    (World.ofGrid [[0]]).is_wall (-1/2) (1/2) = true := by
  constructor
  · with_unfolding_all decide
  · with_unfolding_all decide

/-- Well-formedness of a `World`, as guaranteed by `World.__init__` for any
grid world: every in-bounds door tile has a door object at that cell, door
cells are pairwise distinct, and the stored dimensions agree with the grid. -/
def World.WF (w : World) : Prop :=
  (∀ y : ℕ, y < w.map.length → ∀ x : ℕ, x < (w.map.getD y []).length →
      (w.map.getD y []).getD x 0 = TILE_DOOR →
        ∃ d ∈ w.doors, d.x = (x : ℤ) ∧ d.y = (y : ℤ)) ∧
  w.doors.Pairwise (fun d d' => d.x ≠ d'.x ∨ d.y ≠ d'.y) ∧
  w.height = w.map.length ∧
  (∀ row ∈ w.map, row.length = w.width)

instance (w : World) : Decidable w.WF := by
  unfold World.WF; infer_instance

/-- C4: full characterization of `is_wall`. For a well-formed world (as built
by `World.__init__`) and any query point, `is_wall x y` is true exactly when
the point is out of bounds, or its containing cell is a `TILE_WALL` cell, or
its containing cell is a `TILE_DOOR` cell whose door is not in state "open",
or its containing cell is the cell adjacent to some partially open door
(`0 < progress < 1`) in that door's slide direction; in particular an in-bounds
empty cell not so adjacent is not a wall. -/
theorem c4_is_wall_contract (w : World) (hwf : w.WF) (x y : ℚ) :
    w.is_wall x y = true ↔
      (x < 0 ∨ y < 0 ∨ (w.width : ℚ) ≤ x ∨ (w.height : ℚ) ≤ y) ∨
      tileAt w.map (pytrunc x) (pytrunc y) = TILE_WALL ∨
      (tileAt w.map (pytrunc x) (pytrunc y) = TILE_DOOR ∧
        ∃ d ∈ w.doors, d.x = pytrunc x ∧ d.y = pytrunc y ∧ d.state ≠ "open") ∨
      (∃ d ∈ w.doors, 0 < d.progress ∧ d.progress < 1 ∧
        (if d.slide_axis = "x" then pytrunc x = d.x + d.slide_dir ∧ pytrunc y = d.y
         else pytrunc x = d.x ∧ pytrunc y = d.y + d.slide_dir)) := by
  obtain ⟨hdoorex, hdisj, hh, hrows⟩ := hwf
  by_cases hoob : x < 0 ∨ y < 0 ∨ (w.width : ℚ) ≤ x ∨ (w.height : ℚ) ≤ y
  · rw [World.is_wall, if_pos hoob]
    exact ⟨fun _ => Or.inl hoob, fun _ => rfl⟩
  · rw [World.is_wall, if_neg hoob]
    have hadj_iff : (w.doors.any (fun d =>
        decide (0 < d.progress) && decide (d.progress < 1) &&
          (if d.slide_axis = "x" then
            decide (pytrunc x = d.x + d.slide_dir) && decide (pytrunc y = d.y)
          else
            decide (pytrunc x = d.x) && decide (pytrunc y = d.y + d.slide_dir))) = true) ↔
        (∃ d ∈ w.doors, 0 < d.progress ∧ d.progress < 1 ∧
          (if d.slide_axis = "x" then pytrunc x = d.x + d.slide_dir ∧ pytrunc y = d.y
           else pytrunc x = d.x ∧ pytrunc y = d.y + d.slide_dir)) := by
      rw [List.any_eq_true]
      constructor
      · rintro ⟨d, hd, hpred⟩
        refine ⟨d, hd, ?_⟩
        by_cases haxis : d.slide_axis = "x" <;>
          simp only [haxis, if_true, if_false, if_pos, if_neg, Bool.and_eq_true,
            decide_eq_true_eq] at hpred ⊢ <;>
          tauto
      · rintro ⟨d, hd, h1, h2, h3⟩
        refine ⟨d, hd, ?_⟩
        by_cases haxis : d.slide_axis = "x" <;>
          simp only [haxis, if_true, if_false, Bool.and_eq_true, decide_eq_true_eq] at h3 ⊢ <;>
          tauto
    by_cases hadj : (w.doors.any (fun d =>
        decide (0 < d.progress) && decide (d.progress < 1) &&
          (if d.slide_axis = "x" then
            decide (pytrunc x = d.x + d.slide_dir) && decide (pytrunc y = d.y)
          else
            decide (pytrunc x = d.x) && decide (pytrunc y = d.y + d.slide_dir))) = true)
    · rw [if_pos hadj]
      exact ⟨fun _ => Or.inr (Or.inr (Or.inr (hadj_iff.mp hadj))), fun _ => rfl⟩
    · rw [if_neg hadj]
      have hnadj := fun h => hadj (hadj_iff.mpr h)
      by_cases hdoor : tileAt w.map (pytrunc x) (pytrunc y) = TILE_DOOR
      · rw [if_pos hdoor]
        -- the bounds give a genuine in-bounds cell, so a door object exists
        have hoob' := hoob
        push_neg at hoob'
        obtain ⟨hx0, hy0, hxw, hyh⟩ := hoob'
        have htx : pytrunc x = ⌊x⌋ := pytrunc_of_nonneg hx0
        have hty : pytrunc y = ⌊y⌋ := pytrunc_of_nonneg hy0
        have htx0 : 0 ≤ pytrunc x := by rw [htx]; exact Int.floor_nonneg.mpr hx0
        have hty0 : 0 ≤ pytrunc y := by rw [hty]; exact Int.floor_nonneg.mpr hy0
        have htxw : pytrunc x < (w.width : ℤ) := by
          rw [htx]; exact Int.floor_lt.mpr (by exact_mod_cast hxw)
        have htyh : pytrunc y < (w.height : ℤ) := by
          rw [hty]; exact Int.floor_lt.mpr (by exact_mod_cast hyh)
        have hiy : (pytrunc y).toNat < w.map.length := by
          rw [← hh]; omega
        have hrowmem : w.map.getD (pytrunc y).toNat [] ∈ w.map := by
          rw [List.getD_eq_getElem?_getD, List.getElem?_eq_getElem hiy, Option.getD_some]
          exact List.getElem_mem hiy
        have hix : (pytrunc x).toNat < (w.map.getD (pytrunc y).toNat []).length := by
          rw [hrows _ hrowmem]; omega
        have hexd : ∃ d ∈ w.doors, d.x = pytrunc x ∧ d.y = pytrunc y := by
          obtain ⟨d, hdmem, hdx, hdy⟩ :=
            hdoorex (pytrunc y).toNat hiy (pytrunc x).toNat hix (by
              have : tileAt w.map (pytrunc x) (pytrunc y) =
                  (w.map.getD (pytrunc y).toNat []).getD (pytrunc x).toNat 0 := rfl
              rw [← this]; exact hdoor)
          exact ⟨d, hdmem, by omega, by omega⟩
        cases hfind : w.doors.find? (fun d =>
            decide (d.x = pytrunc x) && decide (d.y = pytrunc y)) with
        | none =>
          exfalso
          obtain ⟨d, hdmem, hdx, hdy⟩ := hexd
          have := List.find?_eq_none.mp hfind d hdmem
          simp only [Bool.and_eq_true, decide_eq_true_eq] at this
          exact this ⟨hdx, hdy⟩
        | some d₀ =>
          have hd₀mem := List.mem_of_find?_eq_some hfind
          have hd₀pred := List.find?_some hfind
          simp only [Bool.and_eq_true, decide_eq_true_eq] at hd₀pred
          constructor
          · intro h
            exact Or.inr (Or.inr (Or.inl ⟨hdoor,
              d₀, hd₀mem, hd₀pred.1, hd₀pred.2, of_decide_eq_true h⟩))
          · rintro (h | h | ⟨-, d, hdmem, hdx, hdy, hdstate⟩ | h)
            · exact absurd h hoob
            · rw [hdoor] at h; exact absurd h (by decide)
            · have hdd : d = d₀ := by
                by_contra hne
                have := List.Pairwise.forall
                  (fun a b hab => hab.imp Ne.symm Ne.symm) hdisj hdmem hd₀mem hne
                rcases this with hne' | hne'
                · exact hne' (hdx.trans hd₀pred.1.symm)
                · exact hne' (hdy.trans hd₀pred.2.symm)
              subst hdd
              exact decide_eq_true_iff.mpr hdstate
            · exact absurd h hnadj
      · rw [if_neg hdoor]
        constructor
        · intro h
          exact Or.inr (Or.inl (of_decide_eq_true h))
        · rintro (h | h | ⟨hdoor', -⟩ | h)
          · exact absurd h hoob
          · exact decide_eq_true_iff.mpr h
          · exact absurd hdoor' hdoor
          · exact absurd h hnadj

/-- C4, witness: the contract applied to the concrete world of the 1x3 door
grid at the door cell (with the door closed). -/
theorem c4_is_wall_contract_witness :
    (World.ofGrid [[0, 2, 0]]).is_wall 1 0 = true ↔
      ((1 : ℚ) < 0 ∨ (0 : ℚ) < 0 ∨ ((World.ofGrid [[0, 2, 0]]).width : ℚ) ≤ 1 ∨
        ((World.ofGrid [[0, 2, 0]]).height : ℚ) ≤ 0) ∨
      tileAt (World.ofGrid [[0, 2, 0]]).map (pytrunc 1) (pytrunc 0) = TILE_WALL ∨
      (tileAt (World.ofGrid [[0, 2, 0]]).map (pytrunc 1) (pytrunc 0) = TILE_DOOR ∧
        ∃ d ∈ (World.ofGrid [[0, 2, 0]]).doors,
          d.x = pytrunc 1 ∧ d.y = pytrunc 0 ∧ d.state ≠ "open") ∨
      (∃ d ∈ (World.ofGrid [[0, 2, 0]]).doors, 0 < d.progress ∧ d.progress < 1 ∧
        (if d.slide_axis = "x" then pytrunc 1 = d.x + d.slide_dir ∧ pytrunc 0 = d.y
         else pytrunc 1 = d.x ∧ pytrunc 0 = d.y + d.slide_dir)) :=
  c4_is_wall_contract (World.ofGrid [[0, 2, 0]]) (by with_unfolding_all decide) 1 0

/-- Collision radius for enemy-player contact (src/game/config.py line 18). -/
def COLLISION_RADIUS : ℚ := 1/2

/-- Collision radius for bullet-enemy hits (src/game/config.py line 61). -/
def BULLET_HIT_RADIUS : ℚ := 1/2

/-- Delay before enemy respawn after death (src/game/config.py line 64). -/
def ENEMY_RESPAWN_DELAY : ℚ := 2

/-- Bullet speed in map units per second (src/game/config.py line 56). -/
def BULLET_SPEED : ℚ := 10

/-- Bullet lifespan in seconds (src/game/config.py line 58). -/
def BULLET_LIFESPAN : ℚ := 2

/-- Bullet state (src/game/bullet.py lines 24-34). -/
structure Bullet where
  x : ℚ
  y : ℚ
  dx : ℚ
  dy : ℚ
  lifespan : ℚ
  active : Bool
deriving DecidableEq

/-- Bullet.__init__ at angle 0 (src/game/bullet.py lines 24-34): velocity
components are `dx = cos 0 * BULLET_SPEED = BULLET_SPEED` and
`dy = sin 0 * BULLET_SPEED = 0`. -/
def Bullet.initAngle0 (x y : ℚ) : Bullet :=
  { x := x, y := y, dx := BULLET_SPEED, dy := 0, lifespan := BULLET_LIFESPAN, active := true }

/-- Bullet.update (src/game/bullet.py lines 36-47): advance position, decrease
remaining life, deactivate when the lifespan reaches zero. -/
def Bullet.update (dt : ℚ) (b : Bullet) : Bullet :=
  let x := b.x + b.dx * dt
  let y := b.y + b.dy * dt
  let lifespan := b.lifespan - dt
  if lifespan ≤ 0 then { b with x := x, y := y, lifespan := lifespan, active := false }
  else { b with x := x, y := y, lifespan := lifespan }

/-- Enemy state (src/game/enemy.py lines 17-45). The rendering-only fields
(textures, height, angle) are omitted; `home_room` is absent (`none`) unless
set by `World.__init__`, matching Python's `getattr(enemy, "home_room", None)`
for manually constructed enemies. -/
structure Enemy where
  x : ℚ
  y : ℚ
  spawn_x : ℚ
  spawn_y : ℚ
  max_health : ℤ
  health : ℤ
  respawn_timer : ℚ
  sight_timer : ℚ
  home_room : Option ℤ
deriving DecidableEq

/-- Enemy.__init__ (src/game/enemy.py lines 17-45) with an explicit health. -/
def Enemy.init (x y : ℚ) (health : ℤ) : Enemy :=
  { x := x, y := y, spawn_x := x, spawn_y := y, max_health := health,
    health := health, respawn_timer := 0, sight_timer := 0, home_room := none }

/-- Game._respawn_enemy (src/game/game.py lines 219-257). Enemy objects always
carry `spawn_x`/`spawn_y`/`max_health`/`respawn_timer` (set in
`Enemy.__init__`), so only the spawn-position branch is live; the random
relocation fallback for spawn-less enemies is unreachable for Enemy instances. -/
def Game.respawnEnemy (e : Enemy) : Enemy :=
  { e with x := e.spawn_x, y := e.spawn_y, health := e.max_health, respawn_timer := 0 }

/-- Enemy-player contact pass, per enemy (src/game/game.py lines 176-185).
`math.hypot dx dy < r` is written as `dx*dx + dy*dy < r*r`, equivalent for the
positive radius in exact arithmetic. -/
def Game.collideStep (px py : ℚ) (e : Enemy) : Enemy :=
  if 0 < e.respawn_timer then e
  else if (e.x - px) * (e.x - px) + (e.y - py) * (e.y - py) <
      COLLISION_RADIUS * COLLISION_RADIUS then
    { e with health := 0, respawn_timer := ENEMY_RESPAWN_DELAY }
  else e

/-- Inner bullet-enemy loop (src/game/game.py lines 196-207): scan the enemy
list in order, skip dead or respawning enemies, and on the first live enemy
within `BULLET_HIT_RADIUS` decrement its health and report a hit (`break`). -/
def Game.bulletHitScan (bx qy : ℚ) : List Enemy → List Enemy × Bool
  | [] => ([], false)
  | e :: rest =>
    if 0 < e.respawn_timer ∨ e.health ≤ 0 then
      let r := Game.bulletHitScan bx qy rest
      (e :: r.1, r.2)
    else if (bx - e.x) * (bx - e.x) + (qy - e.y) * (qy - e.y) <
        BULLET_HIT_RADIUS * BULLET_HIT_RADIUS then
      ({ e with health := e.health - 1 } :: rest, true)
    else
      let r := Game.bulletHitScan bx qy rest
      (e :: r.1, r.2)

/-- One iteration of the bullet loop (src/game/game.py lines 187-207): move the
bullet, deactivate it on lifespan expiry or wall hit (skipping the enemy scan),
otherwise resolve the first enemy hit and deactivate the bullet on a hit. -/
def Game.bulletStep (w : World) (dt : ℚ) (acc : List Enemy × List Bullet)
    (b : Bullet) : List Enemy × List Bullet :=
  let b := Bullet.update dt b
  if !b.active || w.is_wall ((pytrunc b.x : ℤ) : ℚ) ((pytrunc b.y : ℤ) : ℚ) then
    (acc.1, acc.2 ++ [{ b with active := false }])
  else
    let r := Game.bulletHitScan b.x b.y acc.1
    if r.2 then (r.1, acc.2 ++ [{ b with active := false }])
    else (r.1, acc.2 ++ [b])

/-- Respawn-timer pass, per enemy (src/game/game.py lines 211-216). -/
def Game.respawnStep (dt : ℚ) (e : Enemy) : Enemy :=
  if 0 < e.respawn_timer then
    let e' := { e with respawn_timer := e.respawn_timer - dt }
    if e'.respawn_timer ≤ 0 then Game.respawnEnemy e' else e'
  else e

/-- Combat fragment of Game.update (src/game/game.py lines 175-217): the
enemy-player collision pass, the bullet loop, the removal of inactive bullets,
and the respawn-timer pass, in source order. (The chase loop at lines 127-174
precedes this fragment but leaves all state unchanged when each enemy's
`home_room` differs from the player's room, as in the scenario below where the
manually added enemy has no `home_room` attribute.) -/
def Game.updateCombat (w : World) (player : Player) (dt : ℚ)
    (enemies : List Enemy) (bullets : List Bullet) : List Enemy × List Bullet :=
  let enemies := enemies.map (Game.collideStep player.x player.y)
  let r := bullets.foldl (Game.bulletStep w dt) (enemies, [])
  ((r.1.map (Game.respawnStep dt)), r.2.filter (·.active))

/-- Game._is_visible_to_player (src/game/game.py lines 259-275). In exact
arithmetic `steps = max(int(dist / 0.1), 1)` with `dist = sqrt s` equals
`max ⌊sqrt (100*s)⌋ 1 = max (Nat.sqrt ⌊100*s⌋) 1`, and Python's
`range(1, steps)` is `List.range' 1 (steps - 1)`. -/
def Game.isVisibleToPlayer (w : World) (px py x y : ℚ) : Bool :=
  let dx := x - px
  let dy := y - py
  let steps := max (Nat.sqrt (⌊100 * (dx * dx + dy * dy)⌋).toNat) 1
  (List.range' 1 (steps - 1)).all fun i =>
    !(w.is_wall (px + dx * ((i : ℚ) / (steps : ℚ))) (py + dy * ((i : ℚ) / (steps : ℚ))))

/-- C10: the line-of-sight test samples only strictly interior points with
`steps = max(int(dist/0.1), 1)`, so any target closer than 0.2 tiles
(squared distance below 1/25) yields `steps = 1`, an empty sample range, and
an unconditional `true` - walls between the points are never consulted. -/
theorem c10_close_targets_always_visible (w : World) (px py x y : ℚ)
    (hclose : (x - px) * (x - px) + (y - py) * (y - py) < 1/25) :
    Game.isVisibleToPlayer w px py x y = true := by
  have h4 : (100 : ℚ) * ((x - px) * (x - px) + (y - py) * (y - py)) < 4 := by linarith
  have hfl : ⌊(100 : ℚ) * ((x - px) * (x - px) + (y - py) * (y - py))⌋ < 4 :=
    Int.floor_lt.mpr (by exact_mod_cast h4)
  have htn : (⌊(100 : ℚ) * ((x - px) * (x - px) + (y - py) * (y - py))⌋).toNat < 4 := by
    omega
  have hsq : Nat.sqrt (⌊(100 : ℚ) * ((x - px) * (x - px) + (y - py) * (y - py))⌋).toNat < 2 :=
    Nat.sqrt_lt.mpr (by omega)
  have hmax : max (Nat.sqrt
      (⌊(100 : ℚ) * ((x - px) * (x - px) + (y - py) * (y - py))⌋).toNat) 1 = 1 :=
    max_eq_right (by omega)
  simp only [Game.isVisibleToPlayer, hmax]
  rfl

/-- C10, witness: a concrete world with a wall tile at the target's cell; the
target is inside the wall 0.1 tiles from the player, yet reported visible. -/
theorem c10_close_targets_always_visible_witness :
    ((21/20 - 19/20 : ℚ) * (21/20 - 19/20) + (1/2 - 1/2 : ℚ) * (1/2 - 1/2) < 1/25) ∧
    Game.isVisibleToPlayer (World.ofGrid [[0, 1]]) (19/20) (1/2) (21/20) (1/2) = true ∧
    (World.ofGrid [[0, 1]]).is_wall (21/20) (1/2) = true :=
  ⟨by norm_num,
   c10_close_targets_always_visible (World.ofGrid [[0, 1]]) (19/20) (1/2) (21/20) (1/2)
     (by norm_num),
   by with_unfolding_all decide⟩

/-- The 5x1 open corridor world of the bullet-kill scenario. -/
def combatWorld : World := World.ofGrid [[0, 0, 0, 0, 0]]

/-- The scenario enemy: health 5, placed at (4.5, 0.5), four tiles away from
the player at (0.5, 0.5). -/
def combatEnemy : Enemy := Enemy.init (9/2) (1/2) 5

/-- The scenario bullet, fired along angle 0 from x = 4.15: after one update
with dt = 1/100 it sits at (4.25, 0.5), within 0.25 < 0.5 of the enemy. -/
def combatBullet : Bullet := Bullet.initAngle0 (83/20) (1/2)

/-- One frame of the scenario: a fresh bullet is appended (as `handle_events`
does on fire input) and the combat fragment of `Game.update` runs with
dt = 1/100. -/
def combatStep (st : List Enemy × List Bullet) : List Enemy × List Bullet :=
  Game.updateCombat combatWorld ⟨1/2, 1/2⟩ (1/100) st.1 (st.2 ++ [combatBullet])

/-- The scenario state after n frames, starting from the live enemy and no
bullets. -/
def combatAfter : ℕ → List Enemy × List Bullet
  | 0 => ([combatEnemy], [])
  | n + 1 => combatStep (combatAfter n)

/-- C1, counterexample: after the fifth hitting bullet the enemy's health is 0
but its `respawn_timer` is still 0, not `ENEMY_RESPAWN_DELAY` (= 2): the
bullet-hit branch of `Game.update` only decrements health and never starts the
respawn timer (that assignment exists only in the enemy-touches-player branch). -/
theorem c1_counterexample :
    ((combatAfter 5).1.headD combatEnemy).health = 0 ∧
    ((combatAfter 5).1.headD combatEnemy).respawn_timer = 0 ∧
    ((combatAfter 5).1.headD combatEnemy).respawn_timer ≠ ENEMY_RESPAWN_DELAY := by
  refine ⟨?_, ?_, ?_⟩ <;> with_unfolding_all decide

/-- C1, amended: each of the five bullet frames decrements the enemy's health
by exactly 1 (5,4,3,2,1,0) and consumes the bullet (the bullet list is empty
after each of the first five frames); after the fifth hit health is 0 while
`respawn_timer` remains 0 (bullet kills never set `ENEMY_RESPAWN_DELAY`, which
only the player-contact branch assigns); a sixth bullet overlapping the dead
enemy leaves the enemy list unchanged - and is itself not even consumed, since
the hit scan skips dead enemies. -/
theorem c1_amended :
    (List.map (fun k => ((combatAfter k).1.headD combatEnemy).health)
      [0, 1, 2, 3, 4, 5] = [5, 4, 3, 2, 1, 0]) ∧
    (∀ k ∈ [1, 2, 3, 4, 5], (combatAfter k).2 = []) ∧
    ((combatAfter 5).1.headD combatEnemy).respawn_timer = 0 ∧
    (combatAfter 6).1 = (combatAfter 5).1 ∧
    (combatAfter 6).2 ≠ [] := by
  refine ⟨?_, ?_, ?_, ?_, ?_⟩ <;> with_unfolding_all decide

/-- C3, witness: the scenario at the concrete timing configuration (1, 5, 1). -/
theorem c3_scenario_witness :
    (World.ofGrid [[0, 2, 0]]).is_wall 1 0 = true ∧
    (World.ofGrid [[0, 2, 0]]).doors.map Door.state = ["closed"] ∧
    ∃ dts : List ℚ, (∀ dt ∈ dts, 0 ≤ dt) ∧ dts.sum = 1 ∧
      (runDoors ⟨1, 5, 1⟩ ⟨3/2, 1/2⟩ dts (World.ofGrid [[0, 2, 0]])).doors.map Door.state =
        ["open"] ∧
      (runDoors ⟨1, 5, 1⟩ ⟨3/2, 1/2⟩ dts (World.ofGrid [[0, 2, 0]])).doors.map Door.progress =
        [1] ∧
      (runDoors ⟨1, 5, 1⟩ ⟨3/2, 1/2⟩ dts (World.ofGrid [[0, 2, 0]])).is_wall 1 0 = false :=
  c3_scenario ⟨1, 5, 1⟩ (by norm_num)

/-- Ray direction x-component for a column (src/game/wall_renderer.py line 80):
`dir_x = cos_pa * cos(angle_off) - sin_pa * sin(angle_off)`. The four trig
values are passed as exact rational points on the unit circle. -/
def rayDirX (cPa sPa cOff sOff : ℚ) : ℚ := cPa * cOff - sPa * sOff

/-- Ray direction y-component (src/game/wall_renderer.py line 81):
`dir_y = sin_pa * cos(angle_off) + cos_pa * sin(angle_off)`. -/
def rayDirY (cPa sPa cOff sOff : ℚ) : ℚ := sPa * cOff + cPa * sOff

/-- Raw hit distance along the ray (src/game/wall_renderer.py lines 156-159),
given the DDA outputs `map_x`, `map_y`, `side`, `step_x`, `step_y` for the
hit wall face. With a unit ray direction this is the Euclidean ray length. -/
def hitDist (px py : ℚ) (mapX mapY : ℤ) (side : ℕ) (stepX stepY : ℤ)
    (dirX dirY : ℚ) : ℚ :=
  if side = 0 then ((mapX : ℚ) - px + (1 - (stepX : ℚ)) / 2) / dirX
  else ((mapY : ℚ) - py + (1 - (stepY : ℚ)) / 2) / dirY

/-- Depth-buffer value for a column (src/game/wall_renderer.py line 160):
`perp = max(dist * cos(angle_off), 1e-3)`. -/
def perpDepth (dist cOff : ℚ) : ℚ := max (dist * cOff) (1/1000)

/-- C8, counterexample: with the player at angle `pa` with
`(cos pa, sin pa) = (3/5, 4/5)` (an oblique view) at `x = 1/2`, two columns
with ray offsets `(cos, sin) = (1, 0)` and `(4/5, -3/5)` both hitting the same
vertical wall face `x = 2` (side 0, step_x = 1) store different perpendicular
distances 5/2 and 5/4, refuting the claim for arbitrary player orientation. -/
theorem c8_counterexample :
    perpDepth (hitDist (1/2) (1/2) 2 0 0 1 1
      (rayDirX (3/5) (4/5) 1 0) (rayDirY (3/5) (4/5) 1 0)) 1 = 5/2 ∧
    perpDepth (hitDist (1/2) (1/2) 2 0 0 1 1
      (rayDirX (3/5) (4/5) (4/5) (-3/5)) (rayDirY (3/5) (4/5) (4/5) (-3/5))) (4/5) = 5/4 ∧
    ((5 : ℚ)/2 ≠ 5/4) ∧
    ((3/5 : ℚ) * (3/5) + (4/5) * (4/5) = 1) ∧
    ((1 : ℚ) * 1 + 0 * 0 = 1) ∧
    ((4/5 : ℚ) * (4/5) + (-3/5) * (-3/5) = 1) ∧
    (((1 : ℚ), (0 : ℚ)) ≠ ((4/5 : ℚ), (-3/5 : ℚ))) := by
  refine ⟨?_, ?_, ?_, ?_, ?_, ?_, ?_⟩ <;> with_unfolding_all decide

/-- C8, amended: the depth buffer stores `max(dist * cos(angle_off), 1e-3)`,
never below the epsilon; the ray direction is a unit vector so `dist` is the
raw Euclidean hit distance; and for a player facing straight at a vertical
wall face (player angle 0, face hit with side 0 and step_x = 1), two columns
with distinct ray offsets store *equal* perpendicular distances even though
their raw distances differ. -/
theorem c8_amended (px py : ℚ) (mapX mapY stepY : ℤ) (cOff sOff cOff' sOff' : ℚ)
    (hu : cOff * cOff + sOff * sOff = 1) (hu' : cOff' * cOff' + sOff' * sOff' = 1)
    (hpos : 0 < cOff) (hpos' : 0 < cOff')
    (hface : (0 : ℚ) < (mapX : ℚ) - px) (hdiff : cOff ≠ cOff') :
    (∀ dist : ℚ, 1/1000 ≤ perpDepth dist cOff) ∧
    (rayDirX 1 0 cOff sOff * rayDirX 1 0 cOff sOff +
      rayDirY 1 0 cOff sOff * rayDirY 1 0 cOff sOff = 1) ∧
    perpDepth (hitDist px py mapX mapY 0 1 stepY
        (rayDirX 1 0 cOff sOff) (rayDirY 1 0 cOff sOff)) cOff =
      perpDepth (hitDist px py mapX mapY 0 1 stepY
        (rayDirX 1 0 cOff' sOff') (rayDirY 1 0 cOff' sOff')) cOff' ∧
    hitDist px py mapX mapY 0 1 stepY
        (rayDirX 1 0 cOff sOff) (rayDirY 1 0 cOff sOff) ≠
      hitDist px py mapX mapY 0 1 stepY
        (rayDirX 1 0 cOff' sOff') (rayDirY 1 0 cOff' sOff') := by
  have hdx : rayDirX 1 0 cOff sOff = cOff := by simp [rayDirX]
  have hdx' : rayDirX 1 0 cOff' sOff' = cOff' := by simp [rayDirX]
  have hstep : ((1 : ℚ) - ((1 : ℤ) : ℚ)) / 2 = 0 := by norm_num
  have hdist : hitDist px py mapX mapY 0 1 stepY
      (rayDirX 1 0 cOff sOff) (rayDirY 1 0 cOff sOff) = ((mapX : ℚ) - px) / cOff := by
    rw [hitDist, if_pos rfl, hdx, hstep, add_zero]
  have hdist' : hitDist px py mapX mapY 0 1 stepY
      (rayDirX 1 0 cOff' sOff') (rayDirY 1 0 cOff' sOff') = ((mapX : ℚ) - px) / cOff' := by
    rw [hitDist, if_pos rfl, hdx', hstep, add_zero]
  refine ⟨fun dist => le_max_right _ _, ?_, ?_, ?_⟩
  · simp only [rayDirX, rayDirY]
    linear_combination hu
  · rw [hdist, hdist', perpDepth, perpDepth,
      div_mul_cancel₀ _ hpos.ne', div_mul_cancel₀ _ hpos'.ne']
  · rw [hdist, hdist']
    intro h
    apply hdiff
    rw [div_eq_div_iff hpos.ne' hpos'.ne'] at h
    exact mul_left_cancel₀ hface.ne' (by linarith)

/-- C8, witness for the amended theorem: player at x = 1/2 facing the face
x = 2 straight on; the center column (offset (1,0)) and an oblique column
(offset (4/5, 3/5)) store the same depth 3/2 with raw distances 3/2 and 15/8. -/
theorem c8_amended_witness :
    (∀ dist : ℚ, 1/1000 ≤ perpDepth dist 1) ∧
    (rayDirX 1 0 1 0 * rayDirX 1 0 1 0 + rayDirY 1 0 1 0 * rayDirY 1 0 1 0 = 1) ∧
    perpDepth (hitDist (1/2) (1/2) 2 0 0 1 1
        (rayDirX 1 0 1 0) (rayDirY 1 0 1 0)) 1 =
      perpDepth (hitDist (1/2) (1/2) 2 0 0 1 1
        (rayDirX 1 0 (4/5) (3/5)) (rayDirY 1 0 (4/5) (3/5))) (4/5) ∧
    hitDist (1/2) (1/2) 2 0 0 1 1 (rayDirX 1 0 1 0) (rayDirY 1 0 1 0) ≠
      hitDist (1/2) (1/2) 2 0 0 1 1 (rayDirX 1 0 (4/5) (3/5)) (rayDirY 1 0 (4/5) (3/5)) :=
  c8_amended (1/2) (1/2) 2 0 1 1 0 (4/5) (3/5) (by norm_num) (by norm_num)
    (by norm_num) (by norm_num) (by norm_num) (by norm_num)

/-- Integer grid cell, as used by the pathfinder. -/
abbrev Cell := ℤ × ℤ

/-- Manhattan distance heuristic (src/game/pathfinding.py lines 6-8). -/
def heuristic (a b : Cell) : ℕ := (a.1 - b.1).natAbs + (a.2 - b.2).natAbs

/-- Priority-queue entry `(f_score, count, node)` (src/game/pathfinding.py
line 25). -/
abbrev Entry := ℕ × ℕ × Cell

/-- Choice of the lexicographically smaller entry by `(f_score, count)`.
Python's heapq orders tuples lexicographically; insertion counts are unique
across pushed entries, so the third component is never compared and the
minimum entry is unique. -/
def entPick (a b : Entry) : Entry :=
  if b.1 < a.1 ∨ (b.1 = a.1 ∧ b.2.1 < a.2.1) then b else a

/-- `heapq.heappop`: removes and returns the least entry under Python tuple
order (unique thanks to the distinct counts, so any faithful min-extraction
agrees with the binary heap). -/
def popMin (l : List Entry) : Option (Entry × List Entry) :=
  match l with
  | [] => none
  | e :: es =>
    let m := es.foldl entPick e
    some (m, l.erase m)

/-- The A* loop state: the open priority queue (as a multiset of entries), the
insertion counter, and the `g_score`, `came_from` and `closed` collections.
The Python dicts are association lists where a new binding shadows earlier
ones (`alookup` returns the most recent). -/
structure AState where
  openset : List Entry
  count : ℕ
  gScore : List (Cell × ℕ)
  cameFrom : List (Cell × Cell)
  closed : List Cell

/-- Dict lookup: first (most recent) binding wins. -/
def alookup {β : Type} (k : Cell) : List (Cell × β) → Option β
  | [] => none
  | p :: rest => if k = p.1 then some p.2 else alookup k rest

/-- Neighbor offsets in source order (src/game/pathfinding.py line 56). -/
def dirs : List Cell := [(1, 0), (-1, 0), (0, 1), (0, -1)]

/-- Relaxation of one neighbor (src/game/pathfinding.py lines 56-68): skip
walls and closed cells; if the tentative g improves on the recorded one
(missing = infinity), record the predecessor and g, bump the counter, and push
`(tentative + h, count, neighbor)`. -/
def relax (isW : Cell → Bool) (goal : Cell) (x0 y0 : ℤ) (gCur : ℕ)
    (st : AState) (d : Cell) : AState :=
  let neighbor : Cell := (x0 + d.1, y0 + d.2)
  if isW neighbor || decide (neighbor ∈ st.closed) then st
  else
    let tentative := gCur + 1
    let better := match alookup neighbor st.gScore with
      | none => true
      | some g => decide (tentative < g)
    if better then
      { st with
        cameFrom := (neighbor, (x0, y0)) :: st.cameFrom,
        gScore := (neighbor, tentative) :: st.gScore,
        count := st.count + 1,
        openset := (tentative + heuristic neighbor goal, st.count + 1, neighbor) :: st.openset }
    else st

/-- Path reconstruction (src/game/pathfinding.py lines 42-48):
`path = [current]; while current in came_from: current = came_from[current];
path.append(current)`, then reverse. Fueled by the size of `came_from`: the
recorded g-scores strictly decrease along the chain, so it visits distinct
keys and `length + 1` steps always reach a key-less cell. -/
def reconstructAux (cf : List (Cell × Cell)) : ℕ → Cell → List Cell → List Cell
  | 0, _, acc => acc
  | fuel + 1, cur, acc =>
    match alookup cur cf with
    | none => acc
    | some prev => reconstructAux cf fuel prev (acc ++ [prev])

/-- Full path reconstruction including the final reverse. -/
def reconstructPath (cf : List (Cell × Cell)) (cur : Cell) : List Cell :=
  (reconstructAux cf (cf.length + 1) cur [cur]).reverse

/-- Main A* loop (src/game/pathfinding.py lines 39-68), fueled. Each
iteration pops the least entry; the goal returns the reconstructed path,
already-closed nodes are skipped, and otherwise the node is closed and its
four neighbors relaxed. `none` marks fuel exhaustion, which `astarLoop_total`
below proves impossible for the fuel bound used by `find_path`. -/
def astarLoop (isW : Cell → Bool) (goal : Cell) : ℕ → AState → Option (List Cell)
  | 0, _ => none
  | fuel + 1, st =>
    match popMin st.openset with
    | none => some []
    | some (e, rest) =>
      let current := e.2.2
      if current = goal then some (reconstructPath st.cameFrom current)
      else if decide (current ∈ st.closed) then
        astarLoop isW goal fuel { st with openset := rest }
      else
        astarLoop isW goal fuel
          (dirs.foldl
            (relax isW goal current.1 current.2 ((alookup current st.gScore).getD 0))
            { st with openset := rest, closed := current :: st.closed })

/-- Initial A* state (src/game/pathfinding.py lines 26-37). -/
def initState (start goal : Cell) : AState :=
  { openset := [(heuristic start goal, 0, start)], count := 0,
    gScore := [(start, 0)], cameFrom := [], closed := [] }

/-- Fuel bound for the loop: every expansion closes a distinct node among the
at most `width*height + 1` walkable-or-start cells and pushes at most four
entries, so the total number of pops is below this bound. -/
def pathFuel (w : World) : ℕ := 4 * (w.width * w.height + 1) + 2

/-- find_path (src/game/pathfinding.py lines 10-71). The `int()` conversions
are the identity on integer cells; the walkability predicate is
`world.is_wall` on the integer coordinates. -/
def find_path (start goal : Cell) (w : World) : List Cell :=
  let isW := fun c : Cell => w.is_wall (c.1 : ℚ) (c.2 : ℚ)
  if isW goal then []
  else (astarLoop isW goal (pathFuel w) (initState start goal)).getD []

/-- C9: on the 1x2 grid `[[WALL, EMPTY]]`, with the wall cell (0,0) as start
and the empty cell (1,0) as goal, `find_path` returns the non-empty path
`[(0,0), (1,0)]` whose first element is the wall start cell: the start cell's
walkability is never queried (only the goal and expanded neighbors are). -/
theorem c9_wall_start_path :
    find_path (0, 0) (1, 0) (World.ofGrid [[1, 0]]) = [(0, 0), (1, 0)] ∧
    (World.ofGrid [[1, 0]]).is_wall 0 0 = true ∧
    (World.ofGrid [[1, 0]]).is_wall 1 0 = false := by
  refine ⟨?_, ?_, ?_⟩ <;> with_unfolding_all decide

/-- 4-adjacency between cells, generated by the source's neighbor offsets. -/
def Adj (a b : Cell) : Prop := ∃ d ∈ dirs, b = (a.1 + d.1, a.2 + d.2)

/-- Walkable-after-start reachability in exactly `n` steps: a 4-connected
path from `a` in which every cell after the first is walkable (the start cell
itself is never tested by `find_path`). -/
inductive ReachN (isW : Cell → Bool) (a : Cell) : Cell → ℕ → Prop
  | refl : ReachN isW a a 0
  | step {b c : Cell} {n : ℕ} :
      ReachN isW a b n → Adj b c → isW c = false → ReachN isW a c (n + 1)

/-- Reachability by some walkable-after-start path. -/
def Reaches (isW : Cell → Bool) (a b : Cell) : Prop := ∃ n, ReachN isW a b n

theorem adj_heuristic_one {a b : Cell} (h : Adj a b) : heuristic a b = 1 := by
  obtain ⟨d, hd, rfl⟩ := h
  simp only [dirs, List.mem_cons, List.not_mem_nil, or_false] at hd
  rcases hd with rfl | rfl | rfl | rfl <;> simp [heuristic] <;> omega

theorem heuristic_triangle (a b c : Cell) :
    heuristic a c ≤ heuristic a b + heuristic b c := by
  simp only [heuristic]
  omega

theorem heuristic_comm (a b : Cell) : heuristic a b = heuristic b a := by
  simp only [heuristic]
  omega

theorem reach_manhattan {isW : Cell → Bool} {a c : Cell} {n : ℕ}
    (h : ReachN isW a c n) : heuristic a c ≤ n := by
  induction h with
  | refl => simp [heuristic]
  | step hr hadj hw ih =>
    rename_i b c' m
    calc heuristic a c' ≤ heuristic a b + heuristic b c' := heuristic_triangle _ _ _
    _ ≤ m + 1 := by rw [adj_heuristic_one hadj]; omega

theorem alookup_cons {β : Type} (k : Cell) (p : Cell × β) (l : List (Cell × β)) :
    alookup k (p :: l) = if k = p.1 then some p.2 else alookup k l := rfl

theorem alookup_cons_self {β : Type} (k : Cell) (v : β) (l : List (Cell × β)) :
    alookup k ((k, v) :: l) = some v := by simp [alookup]

theorem alookup_cons_ne {β : Type} {k k' : Cell} (v : β) (l : List (Cell × β))
    (h : k ≠ k') : alookup k ((k', v) :: l) = alookup k l := by simp [alookup, h]

/-- Python tuple order on `(f_score, count)` (non-strict). -/
def entLE (a b : Entry) : Prop := a.1 < b.1 ∨ (a.1 = b.1 ∧ a.2.1 ≤ b.2.1)

theorem entLE_refl (a : Entry) : entLE a a := Or.inr ⟨rfl, le_rfl⟩

theorem entLE_trans {a b c : Entry} (h1 : entLE a b) (h2 : entLE b c) : entLE a c := by
  unfold entLE at *
  omega

theorem entPick_eq_or (a b : Entry) : entPick a b = a ∨ entPick a b = b := by
  unfold entPick
  split_ifs <;> simp

theorem entPick_le_left (a b : Entry) : entLE (entPick a b) a := by
  unfold entPick entLE
  split_ifs with h <;> omega

theorem entPick_le_right (a b : Entry) : entLE (entPick a b) b := by
  unfold entPick entLE
  split_ifs with h <;> omega

theorem foldl_entPick_mem (e : Entry) (es : List Entry) :
    es.foldl entPick e = e ∨ es.foldl entPick e ∈ es := by
  induction es generalizing e with
  | nil => exact Or.inl rfl
  | cons a t ih =>
    rcases ih (entPick e a) with h | h
    · rcases entPick_eq_or e a with h' | h'
      · exact Or.inl (h.trans h')
      · exact Or.inr (by rw [List.foldl_cons, h, h']; exact List.mem_cons_self _ _)
    · exact Or.inr (List.mem_cons_of_mem _ h)

theorem foldl_entPick_le (e : Entry) (es : List Entry) :
    entLE (es.foldl entPick e) e ∧ ∀ x ∈ es, entLE (es.foldl entPick e) x := by
  induction es generalizing e with
  | nil => exact ⟨entLE_refl e, by simp⟩
  | cons a t ih =>
    obtain ⟨h1, h2⟩ := ih (entPick e a)
    refine ⟨entLE_trans h1 (entPick_le_left e a), ?_⟩
    intro x hx
    rcases List.mem_cons.mp hx with rfl | hx
    · exact entLE_trans h1 (entPick_le_right e x)
    · exact h2 x hx

theorem popMin_none_iff (l : List Entry) : popMin l = none ↔ l = [] := by
  cases l <;> simp [popMin]

theorem popMin_spec {l : List Entry} {e : Entry} {rest : List Entry}
    (h : popMin l = some (e, rest)) :
    e ∈ l ∧ rest = l.erase e ∧ (∀ x ∈ l, entLE e x) := by
  match l with
  | [] => simp [popMin] at h
  | a :: t =>
    simp only [popMin, Option.some.injEq, Prod.mk.injEq] at h
    obtain ⟨rfl, rfl⟩ := h
    obtain ⟨h1, h2⟩ := foldl_entPick_le a t
    refine ⟨?_, rfl, ?_⟩
    · rcases foldl_entPick_mem a t with h | h
      · rw [h]; exact List.mem_cons_self _ _
      · exact List.mem_cons_of_mem _ h
    · intro x hx
      rcases List.mem_cons.mp hx with rfl | hx
      · exact h1
      · exact h2 x hx

/-- Invariant of the A* loop state, preserved by every iteration. -/
structure AInv (isW : Cell → Bool) (start goal : Cell) (st : AState) : Prop where
  g_start : alookup start st.gScore = some 0
  cf_start : alookup start st.cameFrom = none
  cf_g : ∀ n p, alookup n st.cameFrom = some p →
    ∃ gn gp, alookup n st.gScore = some gn ∧ alookup p st.gScore = some gp ∧ gp < gn
  g_origin : ∀ n gn, alookup n st.gScore = some gn → alookup n st.cameFrom = none →
    n = start
  cf_adj : ∀ n p, alookup n st.cameFrom = some p → Adj p n ∧ isW n = false
  closed_g : ∀ n ∈ st.closed, ∃ gn, alookup n st.gScore = some gn
  open_good : ∀ n gn, alookup n st.gScore = some gn → n ∉ st.closed →
    ∃ e ∈ st.openset, e.2.2 = n ∧ e.1 = gn + heuristic n goal
  open_stale : ∀ e ∈ st.openset, ∃ k, alookup e.2.2 st.gScore = some k ∧
    k + heuristic e.2.2 goal ≤ e.1
  g_walk : ∀ n gn, alookup n st.gScore = some gn → n = start ∨ isW n = false
  goal_not_closed : goal ∉ st.closed
  closed_nodup : st.closed.Nodup

/-- Companion invariant on a set `S` of nodes: each node of `S` has every
walkable, not-yet-closed neighbor carrying a g-score at most one above its own
(frozen) g-score. -/
def ExpInvOn (isW : Cell → Bool) (S : List Cell) (st : AState) : Prop :=
  ∀ n ∈ S, ∀ d ∈ dirs,
    isW (n.1 + d.1, n.2 + d.2) = false → (n.1 + d.1, n.2 + d.2) ∉ st.closed →
    ∃ k gn, alookup (n.1 + d.1, n.2 + d.2) st.gScore = some k ∧
      alookup n st.gScore = some gn ∧ k ≤ gn + 1

/-- Companion invariant of the loop: `ExpInvOn` over all closed nodes. This is
what each expansion establishes for the node it closes. -/
def ExpInv (isW : Cell → Bool) (st : AState) : Prop := ExpInvOn isW st.closed st

theorem alookup_singleton {β : Type} {n s : Cell} {v gn : β}
    (h : alookup n [(s, v)] = some gn) : n = s ∧ gn = v := by
  by_cases hns : n = s
  · subst hns
    rw [alookup_cons_self] at h
    exact ⟨rfl, (Option.some.inj h).symm⟩
  · rw [alookup_cons_ne _ _ hns] at h
    simp [alookup] at h

theorem ainv_init (isW : Cell → Bool) (start goal : Cell) :
    AInv isW start goal (initState start goal) := by
  unfold initState
  refine ⟨?_, ?_, ?_, ?_, ?_, ?_, ?_, ?_, ?_, ?_, ?_⟩ <;> dsimp only
  · exact alookup_cons_self start 0 []
  · rfl
  · intro n p h; simp [alookup] at h
  · intro n gn h _
    exact (alookup_singleton h).1
  · intro n p h; simp [alookup] at h
  · intro n h; simp at h
  · intro n gn h _
    obtain ⟨rfl, rfl⟩ := alookup_singleton h
    exact ⟨(heuristic n goal, 0, n), List.mem_singleton.mpr rfl, rfl, by omega⟩
  · intro e he
    simp only [List.mem_singleton] at he
    subst he
    exact ⟨0, alookup_cons_self start 0 [], by dsimp only; omega⟩
  · intro n gn h
    exact Or.inl (alookup_singleton h).1
  · simp
  · simp

theorem expinv_init (isW : Cell → Bool) (start goal : Cell) :
    ExpInv isW (initState start goal) := by
  intro n h
  simp [initState] at h

theorem expInvOn_nil (isW : Cell → Bool) (st : AState) : ExpInvOn isW [] st := by
  intro n h
  simp at h

theorem relax_closed_eq (isW : Cell → Bool) (goal : Cell) (x0 y0 : ℤ) (gCur : ℕ)
    (st : AState) (d : Cell) :
    (relax isW goal x0 y0 gCur st d).closed = st.closed := by
  simp only [relax]
  split_ifs <;> rfl

theorem relax_openset_len (isW : Cell → Bool) (goal : Cell) (x0 y0 : ℤ) (gCur : ℕ)
    (st : AState) (d : Cell) :
    (relax isW goal x0 y0 gCur st d).openset.length ≤ st.openset.length + 1 := by
  simp only [relax]
  split_ifs <;> simp

/-- The g-score map only shrinks pointwise under relaxation. -/
theorem relax_g_mono (isW : Cell → Bool) (goal : Cell) (x0 y0 : ℤ) (gCur : ℕ)
    (st : AState) (d : Cell) {n : Cell} {k : ℕ}
    (h : alookup n st.gScore = some k) :
    ∃ k' ≤ k, alookup n (relax isW goal x0 y0 gCur st d).gScore = some k' := by
  simp only [relax]
  split_ifs with h1 h2
  · exact ⟨k, le_rfl, h⟩
  · by_cases hn : n = (x0 + d.1, y0 + d.2)
    · subst hn
      rw [h] at h2
      simp only [decide_eq_true_eq] at h2
      exact ⟨gCur + 1, by omega, alookup_cons_self _ _ _⟩
    · exact ⟨k, le_rfl, by rw [alookup_cons_ne _ _ hn]; exact h⟩
  · exact ⟨k, le_rfl, h⟩

/-- The g-score of any closed node is untouched by relaxation (closed
neighbors are skipped). -/
theorem relax_g_closed (isW : Cell → Bool) (goal : Cell) (x0 y0 : ℤ) (gCur : ℕ)
    (st : AState) (d : Cell) {n : Cell} (hn : n ∈ st.closed) :
    alookup n (relax isW goal x0 y0 gCur st d).gScore = alookup n st.gScore := by
  simp only [relax]
  split_ifs with h1 h2
  · rfl
  · have hne : n ≠ (x0 + d.1, y0 + d.2) := by
      intro he
      subst he
      simp only [Bool.or_eq_true, decide_eq_true_eq, not_or] at h1
      exact h1.2 hn
    exact alookup_cons_ne _ _ hne
  · rfl

theorem relax_g_grows (isW : Cell → Bool) (goal : Cell) (x0 y0 : ℤ) (gCur : ℕ)
    (st : AState) (d : Cell) {n : Cell} {k : ℕ}
    (h : alookup n (relax isW goal x0 y0 gCur st d).gScore = some k)
    (hnb : n ≠ (x0 + d.1, y0 + d.2)) :
    alookup n st.gScore = some k := by
  simp only [relax] at h
  split_ifs at h with h1 h2
  · exact h
  · rwa [alookup_cons_ne _ _ hnb] at h
  · exact h

/-- Invariant preservation for the push branch of `relax`. -/
theorem ainv_improve {isW : Cell → Bool} {start goal : Cell} {st : AState}
    {cur nb : Cell} {gCur : ℕ}
    (hinv : AInv isW start goal st)
    (hcurc : cur ∈ st.closed)
    (hgc : alookup cur st.gScore = some gCur)
    (hadj : Adj cur nb)
    (hw : isW nb = false)
    (hncl : nb ∉ st.closed)
    (hbetter : ∀ g', alookup nb st.gScore = some g' → gCur + 1 < g') :
    AInv isW start goal
      { st with
        cameFrom := (nb, cur) :: st.cameFrom,
        gScore := (nb, gCur + 1) :: st.gScore,
        count := st.count + 1,
        openset := (gCur + 1 + heuristic nb goal, st.count + 1, nb) :: st.openset } := by
  have hnbcur : nb ≠ cur := fun h => hncl (h ▸ hcurc)
  have hnbstart : nb ≠ start := by
    intro h
    exact absurd (hbetter 0 (h ▸ hinv.g_start)) (by omega)
  refine ⟨?_, ?_, ?_, ?_, ?_, ?_, ?_, ?_, ?_, ?_, ?_⟩ <;> dsimp only
  · rw [alookup_cons_ne _ _ (Ne.symm hnbstart)]
    exact hinv.g_start
  · rw [alookup_cons_ne _ _ (Ne.symm hnbstart)]
    exact hinv.cf_start
  · intro n p hl
    by_cases hn : n = nb
    · subst hn
      rw [alookup_cons_self] at hl
      obtain rfl : p = cur := by injection hl with h; exact h.symm
      exact ⟨gCur + 1, gCur, alookup_cons_self _ _ _,
        by rw [alookup_cons_ne _ _ (Ne.symm hnbcur)]; exact hgc, by omega⟩
    · rw [alookup_cons_ne _ _ hn] at hl
      obtain ⟨gn, gp, hgn, hgp, hlt⟩ := hinv.cf_g n p hl
      by_cases hp : p = nb
      · subst hp
        have := hbetter gp hgp
        exact ⟨gn, gCur + 1, by rw [alookup_cons_ne _ _ hn]; exact hgn,
          alookup_cons_self _ _ _, by omega⟩
      · exact ⟨gn, gp, by rw [alookup_cons_ne _ _ hn]; exact hgn,
          by rw [alookup_cons_ne _ _ hp]; exact hgp, hlt⟩
  · intro n gn hg hcf
    by_cases hn : n = nb
    · subst hn
      rw [alookup_cons_self] at hcf
      exact absurd hcf (by simp)
    · rw [alookup_cons_ne _ _ hn] at hg hcf
      exact hinv.g_origin n gn hg hcf
  · intro n p hl
    by_cases hn : n = nb
    · subst hn
      rw [alookup_cons_self] at hl
      obtain rfl : p = cur := by injection hl with h; exact h.symm
      exact ⟨hadj, hw⟩
    · rw [alookup_cons_ne _ _ hn] at hl
      exact hinv.cf_adj n p hl
  · intro n hn
    obtain ⟨gn, hgn⟩ := hinv.closed_g n hn
    have hne : n ≠ nb := fun h => hncl (h ▸ hn)
    exact ⟨gn, by rw [alookup_cons_ne _ _ hne]; exact hgn⟩
  · intro n gn hg hnc
    by_cases hn : n = nb
    · rw [hn] at hg hnc ⊢
      rw [alookup_cons_self] at hg
      obtain rfl : gCur + 1 = gn := by injection hg
      exact ⟨(gCur + 1 + heuristic nb goal, st.count + 1, nb),
        List.mem_cons_self _ _, rfl, rfl⟩
    · rw [alookup_cons_ne _ _ hn] at hg
      obtain ⟨e, he, hecell, hef⟩ := hinv.open_good n gn hg hnc
      exact ⟨e, List.mem_cons_of_mem _ he, hecell, hef⟩
  · intro e he
    rcases List.mem_cons.mp he with rfl | he
    · exact ⟨gCur + 1, alookup_cons_self _ _ _, by dsimp only; omega⟩
    · obtain ⟨k, hk, hle⟩ := hinv.open_stale e he
      by_cases hn : e.2.2 = nb
      · rw [hn] at hk ⊢
        have := hbetter k hk
        exact ⟨gCur + 1, alookup_cons_self _ _ _, by
          have : heuristic nb goal = heuristic e.2.2 goal := by rw [hn]
          omega⟩
      · exact ⟨k, by rw [alookup_cons_ne _ _ hn]; exact hk, hle⟩
  · intro n gn hg
    by_cases hn : n = nb
    · subst hn
      exact Or.inr hw
    · rw [alookup_cons_ne _ _ hn] at hg
      exact hinv.g_walk n gn hg
  · exact hinv.goal_not_closed
  · exact hinv.closed_nodup

/-- Invariant preservation for a single `relax` step on a closed node. -/
theorem ainv_relax {isW : Cell → Bool} {start goal : Cell} {st : AState}
    {cur d : Cell} {gCur : ℕ}
    (hinv : AInv isW start goal st)
    (hcurc : cur ∈ st.closed)
    (hgc : alookup cur st.gScore = some gCur)
    (hd : d ∈ dirs) :
    AInv isW start goal (relax isW goal cur.1 cur.2 gCur st d) := by
  simp only [relax]
  split_ifs with h1 h2
  · exact hinv
  · simp only [Bool.or_eq_true, decide_eq_true_eq, not_or] at h1
    have hw : isW (cur.1 + d.1, cur.2 + d.2) = false := by
      cases h : isW (cur.1 + d.1, cur.2 + d.2)
      · rfl
      · exact absurd h h1.1
    refine ainv_improve hinv hcurc hgc ⟨d, hd, rfl⟩ hw h1.2 ?_
    intro g' hg'
    rw [hg'] at h2
    simpa using h2
  · exact hinv

theorem foldl_relax_closed_eq (isW : Cell → Bool) (goal : Cell) (x0 y0 : ℤ)
    (gCur : ℕ) (L : List Cell) (st : AState) :
    (L.foldl (relax isW goal x0 y0 gCur) st).closed = st.closed := by
  induction L generalizing st with
  | nil => rfl
  | cons a t ih => rw [List.foldl_cons, ih, relax_closed_eq]

theorem foldl_relax_g_closed (isW : Cell → Bool) (goal : Cell) (x0 y0 : ℤ)
    (gCur : ℕ) (L : List Cell) (st : AState) {n : Cell} (hn : n ∈ st.closed) :
    alookup n (L.foldl (relax isW goal x0 y0 gCur) st).gScore = alookup n st.gScore := by
  induction L generalizing st with
  | nil => rfl
  | cons a t ih =>
    rw [List.foldl_cons]
    have h1 : n ∈ (relax isW goal x0 y0 gCur st a).closed := by
      rw [relax_closed_eq]; exact hn
    rw [ih _ h1, relax_g_closed isW goal x0 y0 gCur st a hn]

theorem foldl_relax_g_mono (isW : Cell → Bool) (goal : Cell) (x0 y0 : ℤ)
    (gCur : ℕ) (L : List Cell) (st : AState) {n : Cell} {k : ℕ}
    (h : alookup n st.gScore = some k) :
    ∃ k' ≤ k, alookup n (L.foldl (relax isW goal x0 y0 gCur) st).gScore = some k' := by
  induction L generalizing st k with
  | nil => exact ⟨k, le_rfl, h⟩
  | cons a t ih =>
    obtain ⟨k1, hk1, hl1⟩ := relax_g_mono isW goal x0 y0 gCur st a h
    obtain ⟨k2, hk2, hl2⟩ := ih _ hl1
    exact ⟨k2, le_trans hk2 hk1, hl2⟩

theorem foldl_relax_openset_len (isW : Cell → Bool) (goal : Cell) (x0 y0 : ℤ)
    (gCur : ℕ) (L : List Cell) (st : AState) :
    (L.foldl (relax isW goal x0 y0 gCur) st).openset.length ≤
      st.openset.length + L.length := by
  induction L generalizing st with
  | nil => simp
  | cons a t ih =>
    calc (List.foldl (relax isW goal x0 y0 gCur) (relax isW goal x0 y0 gCur st a) t).openset.length
        ≤ (relax isW goal x0 y0 gCur st a).openset.length + t.length := ih _
      _ ≤ st.openset.length + 1 + t.length := by
          have := relax_openset_len isW goal x0 y0 gCur st a
          omega
      _ = st.openset.length + (a :: t).length := by simp; omega

theorem ainv_foldl {isW : Cell → Bool} {start goal : Cell} {cur : Cell} {gCur : ℕ}
    (L : List Cell) (hL : ∀ d ∈ L, d ∈ dirs) (st : AState)
    (hinv : AInv isW start goal st)
    (hcurc : cur ∈ st.closed)
    (hgc : alookup cur st.gScore = some gCur) :
    AInv isW start goal (L.foldl (relax isW goal cur.1 cur.2 gCur) st) := by
  induction L generalizing st with
  | nil => exact hinv
  | cons a t ih =>
    rw [List.foldl_cons]
    exact ih (fun d hd => hL d (List.mem_cons_of_mem _ hd)) _
      (ainv_relax hinv hcurc hgc (hL a (List.mem_cons_self _ _)))
      ((relax_closed_eq isW goal cur.1 cur.2 gCur st a).symm ▸ hcurc)
      ((relax_g_closed isW goal cur.1 cur.2 gCur st a hcurc).symm ▸ hgc)

theorem expinvOn_relax {isW : Cell → Bool} {S : List Cell} {st : AState}
    (goal : Cell) (x0 y0 : ℤ) (gCur : ℕ) (d : Cell)
    (hS : ∀ n ∈ S, n ∈ st.closed)
    (h : ExpInvOn isW S st) :
    ExpInvOn isW S (relax isW goal x0 y0 gCur st d) := by
  intro n hn d' hd' hw' hncl'
  rw [relax_closed_eq] at hncl'
  obtain ⟨k, gn, hk, hgn, hle⟩ := h n hn d' hd' hw' hncl'
  obtain ⟨k', hk'le, hk'⟩ := relax_g_mono isW goal x0 y0 gCur st d hk
  refine ⟨k', gn, hk', ?_, by omega⟩
  rw [relax_g_closed isW goal x0 y0 gCur st d (hS n hn)]
  exact hgn

theorem expinvOn_foldl {isW : Cell → Bool} {S : List Cell} (goal : Cell)
    (x0 y0 : ℤ) (gCur : ℕ) (L : List Cell) (st : AState)
    (hS : ∀ n ∈ S, n ∈ st.closed)
    (h : ExpInvOn isW S st) :
    ExpInvOn isW S (L.foldl (relax isW goal x0 y0 gCur) st) := by
  induction L generalizing st with
  | nil => exact h
  | cons a t ih =>
    rw [List.foldl_cons]
    exact ih _ (fun n hn => (relax_closed_eq isW goal x0 y0 gCur st a).symm ▸ hS n hn)
      (expinvOn_relax goal x0 y0 gCur a hS h)

/-- After folding `relax` over the full direction list, every walkable
unclosed neighbor of the expanded node has a g-score at most `gCur + 1`. -/
theorem foldl_relax_estab {isW : Cell → Bool} (goal : Cell) {cur : Cell} {gCur : ℕ}
    (L : List Cell) (st : AState)
    (hcurc : cur ∈ st.closed)
    (hgc : alookup cur st.gScore = some gCur) :
    ∀ d ∈ L, isW (cur.1 + d.1, cur.2 + d.2) = false →
      (cur.1 + d.1, cur.2 + d.2) ∉ st.closed →
      ∃ k, alookup (cur.1 + d.1, cur.2 + d.2)
          (L.foldl (relax isW goal cur.1 cur.2 gCur) st).gScore = some k ∧
        k ≤ gCur + 1 := by
  induction L generalizing st with
  | nil => intro d hd; simp at hd
  | cons a t ih =>
    intro d hd hw hncl
    rw [List.foldl_cons]
    rcases List.mem_cons.mp hd with rfl | hdt
    · -- establish at the `relax st d` step, then preserve through the tail fold
      have h1 : ∃ k, alookup (cur.1 + d.1, cur.2 + d.2)
          (relax isW goal cur.1 cur.2 gCur st d).gScore = some k ∧ k ≤ gCur + 1 := by
        simp only [relax]
        split_ifs with hskip hbet
        · exact absurd hskip (by
            simp only [Bool.or_eq_true, decide_eq_true_eq, not_or]
            exact ⟨by rw [hw]; exact Bool.false_ne_true, hncl⟩)
        · exact ⟨gCur + 1, alookup_cons_self _ _ _, le_rfl⟩
        · -- no improvement: the recorded g is already at most gCur + 1
          cases hnb : alookup (cur.1 + d.1, cur.2 + d.2) st.gScore with
          | none => rw [hnb] at hbet; simp at hbet
          | some g' =>
            rw [hnb] at hbet
            simp only [decide_eq_true_eq] at hbet
            exact ⟨g', rfl, by omega⟩
      obtain ⟨k, hk, hkle⟩ := h1
      obtain ⟨k', hk'le, hk'⟩ := foldl_relax_g_mono isW goal cur.1 cur.2 gCur t _ hk
      exact ⟨k', hk', by omega⟩
    · exact ih _ ((relax_closed_eq isW goal cur.1 cur.2 gCur st a).symm ▸ hcurc)
        ((relax_g_closed isW goal cur.1 cur.2 gCur st a hcurc).symm ▸ hgc)
        d hdt hw
        ((relax_closed_eq isW goal cur.1 cur.2 gCur st a).symm ▸ hncl)

theorem ainv_close {isW : Cell → Bool} {start goal : Cell} {st : AState}
    {e : Entry} {rest : List Entry}
    (hinv : AInv isW start goal st)
    (hexp : ExpInv isW st)
    (hpop : popMin st.openset = some (e, rest))
    (hnc : e.2.2 ∉ st.closed)
    (hng : e.2.2 ≠ goal) :
    AInv isW start goal { st with openset := rest, closed := e.2.2 :: st.closed } ∧
    ExpInvOn isW st.closed { st with openset := rest, closed := e.2.2 :: st.closed } := by
  obtain ⟨hemem, hrest, hmin⟩ := popMin_spec hpop
  constructor
  · refine ⟨hinv.g_start, hinv.cf_start, hinv.cf_g, hinv.g_origin, hinv.cf_adj,
      ?_, ?_, ?_, hinv.g_walk, ?_, ?_⟩
    · intro n hn
      rcases List.mem_cons.mp hn with rfl | hn
      · obtain ⟨k, hk, -⟩ := hinv.open_stale e hemem
        exact ⟨k, hk⟩
      · exact hinv.closed_g n hn
    · intro n gn hg hnc'
      simp only [List.mem_cons, not_or] at hnc'
      obtain ⟨e', he', hcell, hf⟩ := hinv.open_good n gn hg hnc'.2
      have hne : e' ≠ e := by
        intro h
        exact hnc'.1 (by rw [← hcell, h])
      refine ⟨e', ?_, hcell, hf⟩
      rw [hrest]
      exact (List.mem_erase_of_ne hne).mpr he'
    · intro e' he'
      rw [hrest] at he'
      exact hinv.open_stale e' (List.mem_of_mem_erase he')
    · simp only [List.mem_cons, not_or]
      exact ⟨fun h => hng h.symm, hinv.goal_not_closed⟩
    · exact List.nodup_cons.mpr ⟨hnc, hinv.closed_nodup⟩
  · intro n hn d hd hw hncl'
    simp only [List.mem_cons, not_or] at hncl'
    exact hexp n hn d hd hw hncl'.2

/-- Full invariant preservation across one expansion iteration of the loop. -/
theorem ainv_expand {isW : Cell → Bool} {start goal : Cell} {st : AState}
    {e : Entry} {rest : List Entry}
    (hinv : AInv isW start goal st)
    (hexp : ExpInv isW st)
    (hpop : popMin st.openset = some (e, rest))
    (hnc : e.2.2 ∉ st.closed)
    (hng : e.2.2 ≠ goal) :
    AInv isW start goal
      (dirs.foldl
        (relax isW goal e.2.2.1 e.2.2.2 ((alookup e.2.2 st.gScore).getD 0))
        { st with openset := rest, closed := e.2.2 :: st.closed }) ∧
    ExpInv isW
      (dirs.foldl
        (relax isW goal e.2.2.1 e.2.2.2 ((alookup e.2.2 st.gScore).getD 0))
        { st with openset := rest, closed := e.2.2 :: st.closed }) := by
  obtain ⟨hemem, hrest, hmin⟩ := popMin_spec hpop
  obtain ⟨gCur, hgCur, -⟩ := hinv.open_stale e hemem
  have hgetD : (alookup e.2.2 st.gScore).getD 0 = gCur := by rw [hgCur]; rfl
  set st' : AState := { st with openset := rest, closed := e.2.2 :: st.closed } with hst'
  obtain ⟨hinv', hexpOn'⟩ := ainv_close hinv hexp hpop hnc hng
  have hcurc' : e.2.2 ∈ st'.closed := List.mem_cons_self _ _
  have hgc' : alookup e.2.2 st'.gScore = some gCur := hgCur
  have hclosed_sub : ∀ n ∈ st.closed, n ∈ st'.closed :=
    fun n hn => List.mem_cons_of_mem _ hn
  rw [hgetD]
  constructor
  · exact ainv_foldl dirs (fun d hd => hd) st' hinv' hcurc' hgc'
  · -- ExpInv for the new closed list: old closed nodes by preservation, the
    -- freshly closed node by the establishment lemma
    intro n hn d hd hw hncl'
    rw [foldl_relax_closed_eq] at hncl'
    have hclosedF : (dirs.foldl (relax isW goal e.2.2.1 e.2.2.2 gCur) st').closed =
        st'.closed := foldl_relax_closed_eq _ _ _ _ _ _ _
    rw [hclosedF] at hn
    rcases List.mem_cons.mp hn with rfl | hn
    · obtain ⟨k, hk, hkle⟩ :=
        foldl_relax_estab goal dirs st' hcurc' hgc' d hd hw hncl'
      refine ⟨k, gCur, hk, ?_, hkle⟩
      rw [foldl_relax_g_closed isW goal e.2.2.1 e.2.2.2 gCur dirs st' hcurc']
      exact hgc'
    · obtain ⟨k, gn, hk, hgn, hkle⟩ :=
        expinvOn_foldl goal e.2.2.1 e.2.2.2 gCur dirs st' hclosed_sub hexpOn'
          n hn d hd hw (by rw [foldl_relax_closed_eq]; exact hncl')
      exact ⟨k, gn, hk, hgn, hkle⟩

theorem ainv_skip {isW : Cell → Bool} {start goal : Cell} {st : AState}
    {e : Entry} {rest : List Entry}
    (hinv : AInv isW start goal st)
    (hpop : popMin st.openset = some (e, rest))
    (hc : e.2.2 ∈ st.closed) :
    AInv isW start goal { st with openset := rest } := by
  obtain ⟨hemem, hrest, hmin⟩ := popMin_spec hpop
  refine ⟨hinv.g_start, hinv.cf_start, hinv.cf_g, hinv.g_origin, hinv.cf_adj,
    hinv.closed_g, ?_, ?_, hinv.g_walk, hinv.goal_not_closed, hinv.closed_nodup⟩
  · intro n gn hg hnc'
    obtain ⟨e', he', hcell, hf⟩ := hinv.open_good n gn hg hnc'
    have hne : e' ≠ e := by
      intro h
      exact hnc' (by rw [← hcell, h]; exact hc)
    refine ⟨e', ?_, hcell, hf⟩
    rw [hrest]
    exact (List.mem_erase_of_ne hne).mpr he'
  · intro e' he'
    rw [hrest] at he'
    exact hinv.open_stale e' (List.mem_of_mem_erase he')

theorem expinv_skip {isW : Cell → Bool} {st : AState} {rest : List Entry}
    (hexp : ExpInv isW st) :
    ExpInv isW { st with openset := rest } := hexp

/-- If the open set is exhausted, every walkable-after-start path from `start`
stays inside the closed set, so the goal (never closed) is unreachable. -/
theorem empty_heap_unreachable {isW : Cell → Bool} {start goal : Cell} {st : AState}
    (hinv : AInv isW start goal st) (hexp : ExpInv isW st)
    (hempty : st.openset = []) :
    ¬ Reaches isW start goal := by
  rintro ⟨n, hr⟩
  have hclosed : ∀ m k, ReachN isW start m k → m ∈ st.closed := by
    intro m k hr
    induction hr with
    | refl =>
      by_contra hnc
      obtain ⟨e, he, -, -⟩ := hinv.open_good start 0 hinv.g_start hnc
      rw [hempty] at he
      exact absurd he (List.not_mem_nil e)
    | step hr hadj hw ih =>
      rename_i b c m'
      by_contra hnc
      obtain ⟨d, hd, rfl⟩ := hadj
      obtain ⟨k', gn, hk', -, -⟩ := hexp b ih d hd hw hnc
      obtain ⟨e, he, -, -⟩ := hinv.open_good _ k' hk' hnc
      rw [hempty] at he
      exact absurd he (List.not_mem_nil e)
  exact hinv.goal_not_closed (hclosed goal n hr)

/-- The chain structure of the `came_from` map below a cell. -/
inductive CFChain (cf : List (Cell × Cell)) : Cell → ℕ → Prop
  | nil {c : Cell} : alookup c cf = none → CFChain cf c 0
  | cons {c p : Cell} {L : ℕ} : alookup c cf = some p → CFChain cf p L →
      CFChain cf c (L + 1)

theorem chain_zero_of_none {cf : List (Cell × Cell)} {c : Cell} {L : ℕ}
    (h : CFChain cf c L) (hn : alookup c cf = none) : L = 0 := by
  cases h with
  | nil _ => rfl
  | cons hcf _ => rw [hn] at hcf; exact absurd hcf (by simp)

theorem chain_exists {isW : Cell → Bool} {start goal : Cell} {st : AState}
    (hinv : AInv isW start goal st) :
    ∀ gn n, alookup n st.gScore = some gn → ∃ L ≤ gn, CFChain st.cameFrom n L := by
  intro gn
  induction gn using Nat.strong_induction_on with
  | _ gn ih =>
    intro n hg
    cases hcf : alookup n st.cameFrom with
    | none => exact ⟨0, by omega, CFChain.nil hcf⟩
    | some p =>
      obtain ⟨gn', gp, hgn', hgp, hlt⟩ := hinv.cf_g n p hcf
      have heq : gn' = gn := by rw [hg] at hgn'; injection hgn' with h; exact h.symm
      subst heq
      obtain ⟨L, hL, hchain⟩ := ih gp (by omega) p hgp
      exact ⟨L + 1, by omega, CFChain.cons hcf hchain⟩

theorem chain_reach {isW : Cell → Bool} {start goal : Cell} {st : AState}
    (hinv : AInv isW start goal st) :
    ∀ {n L}, CFChain st.cameFrom n L → (∃ gn, alookup n st.gScore = some gn) →
      ReachN isW start n L := by
  intro n L hchain
  induction hchain with
  | nil hcf =>
    rintro ⟨gn, hg⟩
    have := hinv.g_origin _ _ hg hcf
    subst this
    exact ReachN.refl
  | cons hcf hch ih =>
    intro _
    obtain ⟨gn, gp, hgn, hgp, -⟩ := hinv.cf_g _ _ hcf
    obtain ⟨hadj, hw⟩ := hinv.cf_adj _ _ hcf
    exact ReachN.step (ih ⟨gp, hgp⟩) hadj hw

theorem alookup_isSome_key_mem {β : Type} {cf : List (Cell × β)} {k : Cell}
    (h : (alookup k cf).isSome) : k ∈ cf.map Prod.fst := by
  induction cf with
  | nil => simp [alookup] at h
  | cons p t ih =>
    by_cases hk : k = p.1
    · exact hk ▸ List.mem_cons_self _ _
    · rw [alookup_cons_ne _ _ hk] at h
      exact List.mem_cons_of_mem _ (ih h)

/-- Along a `came_from` chain the recorded g-scores strictly decrease, so the
non-terminal chain cells are distinct keys of `came_from`, bounding the chain
length by the size of the map. -/
theorem chain_bound {isW : Cell → Bool} {start goal : Cell} {st : AState}
    (hinv : AInv isW start goal st) :
    ∀ {n L gn}, CFChain st.cameFrom n L → alookup n st.gScore = some gn →
      ∃ K : List Cell, K.length = L ∧ K.Nodup ∧
        (∀ k ∈ K, (alookup k st.cameFrom).isSome) ∧
        (∀ k ∈ K, ∃ gk, gk ≤ gn ∧ alookup k st.gScore = some gk) := by
  intro n L gn hchain
  induction hchain generalizing gn with
  | nil hcf =>
    intro _
    exact ⟨[], rfl, List.nodup_nil, by simp, by simp⟩
  | cons hcf hch ih =>
    rename_i c p L'
    intro hg
    obtain ⟨gc, gp, hgc, hgp, hlt⟩ := hinv.cf_g _ _ hcf
    have heq : gc = gn := by rw [hg] at hgc; injection hgc with h; exact h.symm
    subst heq
    obtain ⟨K, hKlen, hKnd, hKsome, hKg⟩ := ih hgp
    refine ⟨c :: K, by simp [hKlen], ?_, ?_, ?_⟩
    · refine List.nodup_cons.mpr ⟨?_, hKnd⟩
      intro hcK
      obtain ⟨gk, hgkle, hgk⟩ := hKg c hcK
      rw [hg] at hgk
      have : gk = gc := by injection hgk with h; exact h.symm
      omega
    · intro k hk
      rcases List.mem_cons.mp hk with rfl | hk
      · rw [hcf]; rfl
      · exact hKsome k hk
    · intro k hk
      rcases List.mem_cons.mp hk with rfl | hk
      · exact ⟨gc, le_rfl, hg⟩
      · obtain ⟨gk, hgkle, hgk⟩ := hKg k hk
        exact ⟨gk, by omega, hgk⟩

theorem chain_le_cf_length {isW : Cell → Bool} {start goal : Cell} {st : AState}
    (hinv : AInv isW start goal st) {n : Cell} {L gn : ℕ}
    (hchain : CFChain st.cameFrom n L) (hg : alookup n st.gScore = some gn) :
    L ≤ st.cameFrom.length := by
  obtain ⟨K, hKlen, hKnd, hKsome, -⟩ := chain_bound hinv hchain hg
  have hsub : K ⊆ st.cameFrom.map Prod.fst := by
    intro k hk
    exact alookup_isSome_key_mem (hKsome k hk)
  calc L = K.length := hKlen.symm
    _ = K.toFinset.card := (List.toFinset_card_of_nodup hKnd).symm
    _ ≤ (st.cameFrom.map Prod.fst).toFinset.card := by
        apply Finset.card_le_card
        intro x hx
        rw [List.mem_toFinset] at hx ⊢
        exact hsub hx
    _ ≤ (st.cameFrom.map Prod.fst).length := List.toFinset_card_le _
    _ = st.cameFrom.length := List.length_map _ _

/-- The list of cells visited by the reconstruction loop, in visit order. -/
def cfList (cf : List (Cell × Cell)) : ℕ → Cell → List Cell
  | 0, c => [c]
  | fuel + 1, c =>
    match alookup c cf with
    | none => [c]
    | some p => c :: cfList cf fuel p

theorem cfList_cons_head (cf : List (Cell × Cell)) (fuel : ℕ) (c : Cell) :
    ∃ t, cfList cf fuel c = c :: t := by
  cases fuel with
  | zero => exact ⟨[], rfl⟩
  | succ m =>
    cases h : alookup c cf with
    | none => exact ⟨[], by simp [cfList, h]⟩
    | some p => exact ⟨cfList cf m p, by simp [cfList, h]⟩

theorem reconstructAux_eq (cf : List (Cell × Cell)) :
    ∀ fuel c acc, reconstructAux cf fuel c acc = acc ++ (cfList cf fuel c).tail := by
  intro fuel
  induction fuel with
  | zero => intro c acc; simp [reconstructAux, cfList]
  | succ m ih =>
    intro c acc
    cases h : alookup c cf with
    | none => simp [reconstructAux, cfList, h]
    | some p =>
      obtain ⟨t, ht⟩ := cfList_cons_head cf m p
      simp only [reconstructAux, cfList, h, ih]
      rw [ht]
      simp

theorem reconstructPath_eq (cf : List (Cell × Cell)) (c : Cell) :
    reconstructPath cf c = (cfList cf (cf.length + 1) c).reverse := by
  obtain ⟨t, ht⟩ := cfList_cons_head cf (cf.length + 1) c
  rw [reconstructPath, reconstructAux_eq, ht]
  simp

/-- Reconstruction along a valid chain produces the full chain: right length,
ending at `start`, with reverse-adjacent consecutive cells. -/
theorem cfList_spec {isW : Cell → Bool} {start goal : Cell} {st : AState}
    (hinv : AInv isW start goal st) :
    ∀ {n L}, CFChain st.cameFrom n L → (∃ gn, alookup n st.gScore = some gn) →
      ∀ fuel, L < fuel →
        (cfList st.cameFrom fuel n).length = L + 1 ∧
        (cfList st.cameFrom fuel n).getLast? = some start ∧
        List.Chain' (fun a b => Adj b a) (cfList st.cameFrom fuel n) := by
  intro n L hchain
  induction hchain with
  | nil hcf =>
    rintro ⟨gn, hg⟩ fuel hfuel
    have hstart := hinv.g_origin _ _ hg hcf
    subst hstart
    cases fuel with
    | zero => omega
    | succ m => simp [cfList, hcf]
  | cons hcf hch ih =>
    rename_i c p L'
    rintro - fuel hfuel
    cases fuel with
    | zero => omega
    | succ m =>
      obtain ⟨gc, gp, hgc, hgp, -⟩ := hinv.cf_g _ _ hcf
      obtain ⟨hlen, hlast, hchn⟩ := ih ⟨gp, hgp⟩ m (by omega)
      obtain ⟨t, ht⟩ := cfList_cons_head st.cameFrom m p
      have hcfl : cfList st.cameFrom (m + 1) c = c :: cfList st.cameFrom m p := by
        simp [cfList, hcf]
      refine ⟨?_, ?_, ?_⟩
      · rw [hcfl, List.length_cons, hlen]
      · rw [hcfl, ht, List.getLast?_cons_cons, ← ht, hlast]
      · rw [hcfl, ht, List.chain'_cons, ← ht]
        exact ⟨(hinv.cf_adj _ _ hcf).1, hchn⟩

/-- The loop's successful outcomes: an empty path exactly when the goal is
unreachable, otherwise a well-formed path from start to goal. -/
theorem astarLoop_sound {isW : Cell → Bool} {start goal : Cell} :
    ∀ fuel (st : AState) (r : List Cell),
      AInv isW start goal st → ExpInv isW st →
      astarLoop isW goal fuel st = some r →
      (r = [] ∧ ¬ Reaches isW start goal) ∨
      (∃ L, ReachN isW start goal L ∧ r.length = L + 1 ∧ r.head? = some start ∧
        r.getLast? = some goal ∧ List.Chain' Adj r ∧ (start = goal → L = 0)) := by
  intro fuel
  induction fuel with
  | zero => intro st r _ _ h; simp [astarLoop] at h
  | succ m ih =>
    intro st r hinv hexp h
    rw [astarLoop] at h
    cases hpop : popMin st.openset with
    | none =>
      rw [hpop] at h
      have hr : r = [] := by injection h with h; exact h.symm
      exact Or.inl ⟨hr, empty_heap_unreachable hinv hexp ((popMin_none_iff _).mp hpop)⟩
    | some pr =>
      obtain ⟨e, rest⟩ := pr
      rw [hpop] at h
      dsimp only at h
      by_cases hg : e.2.2 = goal
      · rw [if_pos hg] at h
        have hr : r = reconstructPath st.cameFrom e.2.2 := by
          injection h with h; exact h.symm
        right
        obtain ⟨hemem, -, -⟩ := popMin_spec hpop
        obtain ⟨gn, hgn, -⟩ := hinv.open_stale e hemem
        rw [hg] at hgn
        obtain ⟨L, hLle, hchain⟩ := chain_exists hinv gn goal hgn
        have hreach := chain_reach hinv hchain ⟨gn, hgn⟩
        have hLb := chain_le_cf_length hinv hchain hgn
        obtain ⟨hlen, hlast, hchn⟩ :=
          cfList_spec hinv hchain ⟨gn, hgn⟩ (st.cameFrom.length + 1) (by omega)
        obtain ⟨t, ht⟩ := cfList_cons_head st.cameFrom (st.cameFrom.length + 1) goal
        rw [hg] at hr
        refine ⟨L, hreach, ?_, ?_, ?_, ?_, ?_⟩
        · rw [hr, reconstructPath_eq, List.length_reverse, hlen]
        · rw [hr, reconstructPath_eq, List.head?_reverse, hlast]
        · rw [hr, reconstructPath_eq, List.getLast?_reverse, ht]
          rfl
        · rw [hr, reconstructPath_eq]
          exact List.chain'_reverse.mpr hchn
        · intro hsg
          exact chain_zero_of_none hchain (hsg ▸ hinv.cf_start)
      · rw [if_neg hg] at h
        by_cases hc : e.2.2 ∈ st.closed
        · rw [if_pos (decide_eq_true hc)] at h
          exact ih _ r (ainv_skip hinv hpop hc) (expinv_skip hexp) h
        · rw [if_neg (by simpa using hc)] at h
          obtain ⟨hinvF, hexpF⟩ := ainv_expand hinv hexp hpop hc hg
          exact ih _ r hinvF hexpF h

theorem nodup_length_le_card (l : List Cell) (s : Finset Cell)
    (hnd : l.Nodup) (hsub : ∀ x ∈ l, x ∈ s) : l.length ≤ s.card := by
  calc l.length = l.toFinset.card := (List.toFinset_card_of_nodup hnd).symm
    _ ≤ s.card := Finset.card_le_card (fun x hx => hsub x (List.mem_toFinset.mp hx))

/-- Fuel sufficiency: with walkable cells bounded by the finite set `B`, the
loop returns before the fuel `openset.length + 4*(|insert start B| - |closed|)`
runs out - each iteration pops one entry, and only the closing of a fresh node
(at most `|insert start B|` times in total) pushes up to four new entries. -/
theorem astarLoop_total {isW : Cell → Bool} {start goal : Cell} (B : Finset Cell)
    (hB : ∀ c, isW c = false → c ∈ B) :
    ∀ fuel (st : AState), AInv isW start goal st → ExpInv isW st →
      (∀ n ∈ st.closed, n ∈ insert start B) →
      st.openset.length + 4 * ((insert start B).card - st.closed.length) < fuel →
      (astarLoop isW goal fuel st).isSome := by
  intro fuel
  induction fuel with
  | zero => intro st _ _ _ h; omega
  | succ m ih =>
    intro st hinv hexp hcsub hfuel
    rw [astarLoop]
    cases hpop : popMin st.openset with
    | none => simp
    | some pr =>
      obtain ⟨e, rest⟩ := pr
      obtain ⟨hemem, hrest, -⟩ := popMin_spec hpop
      have hopos : 1 ≤ st.openset.length := List.length_pos.mpr (fun hnil => by
        rw [hnil] at hemem; exact absurd hemem (List.not_mem_nil e))
      have hrestlen : rest.length = st.openset.length - 1 := by
        rw [hrest]
        exact List.length_erase_of_mem hemem
      dsimp only
      by_cases hg : e.2.2 = goal
      · rw [if_pos hg]
        simp
      · rw [if_neg hg]
        by_cases hc : e.2.2 ∈ st.closed
        · rw [if_pos (decide_eq_true hc)]
          exact ih _ (ainv_skip hinv hpop hc) (expinv_skip hexp) hcsub (by
            dsimp only
            omega)
        · rw [if_neg (by simpa using hc)]
          obtain ⟨hinvF, hexpF⟩ := ainv_expand hinv hexp hpop hc hg
          have hcur_mem : e.2.2 ∈ insert start B := by
            obtain ⟨k, hk, -⟩ := hinv.open_stale e hemem
            rcases hinv.g_walk _ _ hk with rfl | hw
            · exact Finset.mem_insert_self _ _
            · exact Finset.mem_insert_of_mem (hB _ hw)
          have hcsubF : ∀ n ∈ (e.2.2 :: st.closed), n ∈ insert start B := by
            intro n hn
            rcases List.mem_cons.mp hn with rfl | hn
            · exact hcur_mem
            · exact hcsub n hn
          have hndF : (e.2.2 :: st.closed).Nodup :=
            List.nodup_cons.mpr ⟨hc, hinv.closed_nodup⟩
          have hclcard : (e.2.2 :: st.closed).length ≤ (insert start B).card :=
            nodup_length_le_card _ _ hndF hcsubF
          apply ih
          · exact hinvF
          · exact hexpF
          · intro n hn
            rw [foldl_relax_closed_eq] at hn
            exact hcsubF n hn
          · have holen : (dirs.foldl
                (relax isW goal e.2.2.1 e.2.2.2 ((alookup e.2.2 st.gScore).getD 0))
                { st with openset := rest, closed := e.2.2 :: st.closed }).openset.length ≤
                rest.length + 4 := by
              have := foldl_relax_openset_len isW goal e.2.2.1 e.2.2.2
                ((alookup e.2.2 st.gScore).getD 0) dirs
                { st with openset := rest, closed := e.2.2 :: st.closed }
              simpa using this
            have hclen : (dirs.foldl
                (relax isW goal e.2.2.1 e.2.2.2 ((alookup e.2.2 st.gScore).getD 0))
                { st with openset := rest, closed := e.2.2 :: st.closed }).closed.length =
                st.closed.length + 1 := by
              rw [foldl_relax_closed_eq]
              rfl
            rw [hclen]
            simp only [List.length_cons] at hclcard
            omega

/-- The in-bounds cell box of a world, bounding all walkable cells. -/
def worldBox (w : World) : Finset Cell :=
  Finset.Icc (0 : ℤ) ((w.width : ℤ) - 1) ×ˢ Finset.Icc (0 : ℤ) ((w.height : ℤ) - 1)

theorem worldBox_card (w : World) : (worldBox w).card = w.width * w.height := by
  rw [worldBox, Finset.card_product, Int.card_Icc, Int.card_Icc]
  simp

theorem isW_false_mem_box (w : World) (c : Cell)
    (h : w.is_wall (c.1 : ℚ) (c.2 : ℚ) = false) : c ∈ worldBox w := by
  have hoob : ¬ ((c.1 : ℚ) < 0 ∨ (c.2 : ℚ) < 0 ∨ (w.width : ℚ) ≤ (c.1 : ℚ) ∨
      (w.height : ℚ) ≤ (c.2 : ℚ)) := by
    intro hoob
    rw [World.is_wall, if_pos hoob] at h
    exact absurd h (by simp)
  push_neg at hoob
  obtain ⟨h1, h2, h3, h4⟩ := hoob
  rw [worldBox, Finset.mem_product, Finset.mem_Icc, Finset.mem_Icc]
  constructor
  · constructor
    · exact_mod_cast h1
    · have : c.1 < (w.width : ℤ) := by exact_mod_cast h3
      omega
  · constructor
    · exact_mod_cast h2
    · have : c.2 < (w.height : ℤ) := by exact_mod_cast h4
      omega

/-- When the goal is not a wall, `find_path` is the (always-`some`) result of
the fueled loop from the initial state. -/
theorem find_path_run (w : World) (start goal : Cell)
    (hgw : w.is_wall (goal.1 : ℚ) (goal.2 : ℚ) = false) :
    ∃ r, astarLoop (fun c : Cell => w.is_wall (c.1 : ℚ) (c.2 : ℚ)) goal
        (pathFuel w) (initState start goal) = some r ∧
      find_path start goal w = r := by
  have hsome := @astarLoop_total (fun c : Cell => w.is_wall (c.1 : ℚ) (c.2 : ℚ))
    start goal (worldBox w) (isW_false_mem_box w) (pathFuel w)
    (initState start goal) (ainv_init _ _ _) (expinv_init _ _ _)
    (by intro n hn; simp [initState] at hn)
    (by
      have hcard : (insert start (worldBox w)).card ≤ w.width * w.height + 1 := by
        have := Finset.card_insert_le start (worldBox w)
        rw [worldBox_card] at this
        omega
      simp only [initState, List.length_singleton, List.length_nil, pathFuel]
      omega)
  obtain ⟨r, hr⟩ := Option.isSome_iff_exists.mp hsome
  refine ⟨r, hr, ?_⟩
  rw [find_path]
  simp only [hgw]
  rw [hr]
  rfl

/-- C7, counterexample to the claim as stated: on the 1x2 grid `[[WALL, EMPTY]]`
with the wall start (0,0) and walkable goal (1,0), `find_path` returns a
non-empty sequence even though no 4-connected path all of whose cells are
walkable exists (the start cell itself is a wall). -/
theorem c7_counterexample :
    find_path (0, 0) (1, 0) (World.ofGrid [[1, 0]]) ≠ [] ∧
    (World.ofGrid [[1, 0]]).is_wall 1 0 = false ∧
    ¬ ((World.ofGrid [[1, 0]]).is_wall 0 0 = false) := by
  refine ⟨?_, ?_, ?_⟩
  · intro h
    rw [show find_path (0, 0) (1, 0) (World.ofGrid [[1, 0]]) = [(0, 0), (1, 0)] by
      with_unfolding_all decide] at h
    exact absurd h (by simp)
  · with_unfolding_all decide
  · intro h
    rw [show (World.ofGrid [[1, 0]]).is_wall 0 0 = true by with_unfolding_all decide] at h
    exact absurd h (by simp)

/-- C7, amended: for every world and cell pair, `find_path` returns the empty
sequence iff the goal cell is a wall or there is no 4-connected path from
start to goal whose cells *after the start* are walkable (the start cell's
walkability is never queried); a non-empty result begins at start, ends at
goal, has consecutive cells 4-adjacent, and has length 1 when start = goal. -/
theorem c7_find_path_shape (w : World) (start goal : Cell) :
    (find_path start goal w = [] ↔
      w.is_wall (goal.1 : ℚ) (goal.2 : ℚ) = true ∨
        ¬ Reaches (fun c : Cell => w.is_wall (c.1 : ℚ) (c.2 : ℚ)) start goal) ∧
    (find_path start goal w ≠ [] →
      (find_path start goal w).head? = some start ∧
      (find_path start goal w).getLast? = some goal ∧
      List.Chain' Adj (find_path start goal w) ∧
      (start = goal → (find_path start goal w).length = 1)) := by
  by_cases hgw : w.is_wall (goal.1 : ℚ) (goal.2 : ℚ) = true
  · have hnil : find_path start goal w = [] := by
      rw [find_path]
      simp only [hgw]
      rfl
    exact ⟨by rw [hnil]; exact ⟨fun _ => Or.inl hgw, fun _ => rfl⟩,
      fun hne => absurd hnil hne⟩
  · have hgw' : w.is_wall (goal.1 : ℚ) (goal.2 : ℚ) = false := by
      cases h : w.is_wall (goal.1 : ℚ) (goal.2 : ℚ)
      · rfl
      · exact absurd h hgw
    obtain ⟨r, hr, hfp⟩ := find_path_run w start goal hgw'
    rcases astarLoop_sound (pathFuel w) (initState start goal) r
        (ainv_init _ _ _) (expinv_init _ _ _) hr with
      ⟨hrnil, hnr⟩ | ⟨L, hreach, hlen, hhead, hlast, hchn, hsg⟩
    · refine ⟨?_, ?_⟩
      · rw [hfp, hrnil]
        exact ⟨fun _ => Or.inr hnr, fun _ => rfl⟩
      · intro hne
        exact absurd (hfp.trans hrnil) hne
    · have hrne : r ≠ [] := by
        intro h
        rw [h] at hlen
        simp at hlen
      refine ⟨?_, fun _ => ?_⟩
      · rw [hfp]
        constructor
        · intro h
          exact absurd h hrne
        · rintro (h | h)
          · exact absurd h hgw
          · exact absurd ⟨L, hreach⟩ h
      · rw [hfp]
        exact ⟨hhead, hlast, hchn, fun hsg' => by rw [hlen, hsg hsg']⟩

/-- C7, witness: the amended theorem applied to a concrete world where the
path exists, with the non-emptiness hypothesis discharged by evaluation. -/
theorem c7_find_path_shape_witness :
    (find_path (0, 0) (1, 0) (World.ofGrid [[0, 0]])).head? = some (0, 0) ∧
    (find_path (0, 0) (1, 0) (World.ofGrid [[0, 0]])).getLast? = some (1, 0) ∧
    List.Chain' Adj (find_path (0, 0) (1, 0) (World.ofGrid [[0, 0]])) ∧
    ((0, 0) = ((1, 0) : Cell) → (find_path (0, 0) (1, 0) (World.ofGrid [[0, 0]])).length = 1) :=
  (c7_find_path_shape (World.ofGrid [[0, 0]]) (0, 0) (1, 0)).2 (by
    rw [show find_path (0, 0) (1, 0) (World.ofGrid [[0, 0]]) = [(0, 0), (1, 0)] by
      with_unfolding_all decide]
    simp)

/-- The all-empty `W x H` grid world of the optimality claim. -/
def openWorld (W H : ℕ) : World :=
  World.ofGrid (List.replicate H (List.replicate W TILE_EMPTY))

theorem mem_enumFrom_snd {α : Type} :
    ∀ (l : List α) (n : ℕ) (c : ℕ × α), c ∈ List.enumFrom n l → c.2 ∈ l := by
  intro l
  induction l with
  | nil => intro n c h; simp [List.enumFrom] at h
  | cons a t ih =>
    intro n c h
    rw [List.enumFrom] at h
    rcases List.mem_cons.mp h with rfl | h
    · exact List.mem_cons_self _ _
    · exact List.mem_cons_of_mem _ (ih (n + 1) c h)

theorem scanDoors_no_door (m : List (List ℕ))
    (hm : ∀ row ∈ m, ∀ t ∈ row, t ≠ TILE_DOOR) : scanDoors m = [] := by
  rw [scanDoors, List.join_eq_nil_iff]
  intro l hl
  rw [List.mem_map] at hl
  obtain ⟨row, hrow, rfl⟩ := hl
  rw [List.filterMap_eq_nil]
  intro c hc
  have hc2 : c.2 ∈ row.2 := mem_enumFrom_snd _ _ _ hc
  rw [if_neg (hm row.2 (mem_enumFrom_snd _ _ _ hrow) c.2 hc2)]

theorem openWorld_doors (W H : ℕ) : (openWorld W H).doors = [] := by
  rw [openWorld, World.ofGrid]
  have h : scanDoors (List.replicate H (List.replicate W TILE_EMPTY)) = [] := by
    apply scanDoors_no_door
    intro row hrow t ht
    rw [List.eq_of_mem_replicate hrow] at ht
    rw [List.eq_of_mem_replicate ht]
    decide
  simp [h]

theorem openWorld_width (W H : ℕ) (hH : 0 < H) : (openWorld W H).width = W := by
  rw [openWorld, World.ofGrid]
  cases H with
  | zero => omega
  | succ m => simp [List.replicate]

theorem openWorld_height (W H : ℕ) : (openWorld W H).height = H := by
  rw [openWorld, World.ofGrid]
  simp

theorem openWorld_map (W H : ℕ) :
    (openWorld W H).map = List.replicate H (List.replicate W TILE_EMPTY) := rfl

theorem getD_replicate {α : Type} (a d : α) :
    ∀ (n k : ℕ), (List.replicate n a).getD k d = if k < n then a else d := by
  intro n
  induction n with
  | zero =>
    intro k
    rw [List.replicate_zero, if_neg (by omega)]
    rfl
  | succ m ih =>
    intro k
    cases k with
    | zero =>
      rw [List.replicate_succ, List.getD_cons_zero, if_pos (by omega)]
    | succ j =>
      rw [List.replicate_succ, List.getD_cons_succ, ih j]
      by_cases h : j < m
      · rw [if_pos h, if_pos (by omega)]
      · rw [if_neg h, if_neg (by omega)]

theorem tileAt_replicate (W H : ℕ) (x y : ℤ) :
    tileAt (List.replicate H (List.replicate W TILE_EMPTY)) x y = TILE_EMPTY := by
  rw [tileAt, getD_replicate]
  by_cases hy : y.toNat < H
  · rw [if_pos hy, getD_replicate]
    by_cases hx : x.toNat < W
    · rw [if_pos hx]
    · rw [if_neg hx]
      rfl
  · rw [if_neg hy]
    rfl

/-- On the open world, a cell is walkable exactly when it is in bounds. -/
theorem isWall_openWorld (W H : ℕ) (hW : 0 < W) (hH : 0 < H) (c : Cell) :
    (openWorld W H).is_wall (c.1 : ℚ) (c.2 : ℚ) = false ↔
      (0 ≤ c.1 ∧ c.1 < (W : ℤ) ∧ 0 ≤ c.2 ∧ c.2 < (H : ℤ)) := by
  rw [World.is_wall, openWorld_doors, openWorld_map, openWorld_width W H hH,
    openWorld_height W H]
  simp only [List.any_nil, Bool.false_eq_true, if_false, tileAt_replicate]
  rw [if_neg (by decide : ¬(TILE_EMPTY = TILE_DOOR))]
  constructor
  · intro h
    split_ifs at h with hoob
    push_neg at hoob
    obtain ⟨h1, h2, h3, h4⟩ := hoob
    refine ⟨by exact_mod_cast h1, by exact_mod_cast h3, by exact_mod_cast h2,
      by exact_mod_cast h4⟩
  · intro hin
    obtain ⟨h1, h2, h3, h4⟩ := hin
    rw [if_neg]
    · decide
    · push_neg
      refine ⟨by exact_mod_cast h1, by exact_mod_cast h3, by exact_mod_cast h2,
        by exact_mod_cast h4⟩

/-- A monotone staircase from `a` to `b`: first along x, then along y. Cell
`i` is `i` Manhattan steps from `a` and `heuristic a b - i` steps from `b`. -/
def stair (a b : Cell) (i : ℕ) : Cell :=
  let dx := (b.1 - a.1).natAbs
  if i ≤ dx then
    (a.1 + (if a.1 ≤ b.1 then (i : ℤ) else -(i : ℤ)), a.2)
  else
    (b.1, a.2 + (if a.2 ≤ b.2 then ((i : ℤ) - dx) else -((i : ℤ) - dx)))

theorem stair_zero (a b : Cell) : stair a b 0 = a := by
  simp only [stair]
  rw [if_pos (Nat.zero_le _)]
  split_ifs <;> simp

theorem stair_last (a b : Cell) : stair a b (heuristic a b) = b := by
  simp only [stair, heuristic]
  split_ifs <;> (rw [Prod.ext_iff]; constructor <;> dsimp only <;> omega)

theorem stair_h1 (a b : Cell) (i : ℕ) (hi : i ≤ heuristic a b) :
    heuristic a (stair a b i) = i := by
  simp only [stair, heuristic] at hi ⊢
  split_ifs <;> dsimp only <;> omega

theorem stair_h2 (a b : Cell) (i : ℕ) (hi : i ≤ heuristic a b) :
    heuristic (stair a b i) b = heuristic a b - i := by
  simp only [stair, heuristic] at hi ⊢
  split_ifs <;> dsimp only <;> omega

theorem stair_step_dist (a b : Cell) (i : ℕ) (hi : i + 1 ≤ heuristic a b) :
    heuristic (stair a b i) (stair a b (i + 1)) = 1 := by
  simp only [stair, heuristic] at hi ⊢
  split_ifs <;> dsimp only <;> omega

theorem adj_of_heuristic_one {x y : Cell} (h : heuristic x y = 1) : Adj x y := by
  obtain ⟨x1, x2⟩ := x
  obtain ⟨y1, y2⟩ := y
  simp only [heuristic] at h
  have hcases : (y1 = x1 + 1 ∧ y2 = x2) ∨ (y1 = x1 - 1 ∧ y2 = x2) ∨
      (y1 = x1 ∧ y2 = x2 + 1) ∨ (y1 = x1 ∧ y2 = x2 - 1) := by
    omega
  rcases hcases with ⟨rfl, rfl⟩ | ⟨rfl, rfl⟩ | ⟨rfl, rfl⟩ | ⟨rfl, rfl⟩
  · exact ⟨(1, 0), by simp [dirs], by simp⟩
  · exact ⟨(-1, 0), by simp [dirs], by simp [sub_eq_add_neg]⟩
  · exact ⟨(0, 1), by simp [dirs], by simp⟩
  · exact ⟨(0, -1), by simp [dirs], by simp [sub_eq_add_neg]⟩

theorem stair_adj (a b : Cell) (i : ℕ) (hi : i + 1 ≤ heuristic a b) :
    Adj (stair a b i) (stair a b (i + 1)) :=
  adj_of_heuristic_one (stair_step_dist a b i hi)

theorem stair_inb {W H : ℕ} (a b : Cell)
    (ha : 0 ≤ a.1 ∧ a.1 < (W : ℤ) ∧ 0 ≤ a.2 ∧ a.2 < (H : ℤ))
    (hb : 0 ≤ b.1 ∧ b.1 < (W : ℤ) ∧ 0 ≤ b.2 ∧ b.2 < (H : ℤ))
    (i : ℕ) (hi : i ≤ heuristic a b) :
    0 ≤ (stair a b i).1 ∧ (stair a b i).1 < (W : ℤ) ∧
      0 ≤ (stair a b i).2 ∧ (stair a b i).2 < (H : ℤ) := by
  simp only [stair, heuristic] at hi ⊢
  obtain ⟨ha1, ha2, ha3, ha4⟩ := ha
  obtain ⟨hb1, hb2, hb3, hb4⟩ := hb
  split_ifs <;> dsimp only <;> (refine ⟨?_, ?_, ?_, ?_⟩ <;> omega)

/-- On a world whose walkability is exactly in-bounds membership, any two
in-bounds cells are joined by a staircase of length their Manhattan distance. -/
theorem stair_reachN {isW : Cell → Bool} {W H : ℕ}
    (hWiff : ∀ c : Cell, isW c = false ↔
      (0 ≤ c.1 ∧ c.1 < (W : ℤ) ∧ 0 ≤ c.2 ∧ c.2 < (H : ℤ)))
    (a b : Cell)
    (ha : 0 ≤ a.1 ∧ a.1 < (W : ℤ) ∧ 0 ≤ a.2 ∧ a.2 < (H : ℤ))
    (hb : 0 ≤ b.1 ∧ b.1 < (W : ℤ) ∧ 0 ≤ b.2 ∧ b.2 < (H : ℤ)) :
    ReachN isW a b (heuristic a b) := by
  have hstep : ∀ i, i ≤ heuristic a b → ReachN isW a (stair a b i) i := by
    intro i
    induction i with
    | zero => intro _; rw [stair_zero]; exact ReachN.refl
    | succ j ih =>
      intro hj
      exact ReachN.step (ih (by omega)) (stair_adj a b j hj)
        ((hWiff _).mpr (stair_inb a b ha hb (j + 1) hj))
  have := hstep (heuristic a b) le_rfl
  rwa [stair_last] at this

/-- Optimality tracking for the open grid: every closed node's recorded
g-score is its Manhattan distance from the start, the cheapest possible cost
on a 4-connected unit-cost grid without obstacles. -/
def OptExtra (start : Cell) (st : AState) : Prop :=
  ∀ n ∈ st.closed, alookup n st.gScore = some (heuristic start n)

theorem entLE_fst {a b : Entry} (h : entLE a b) : a.1 ≤ b.1 := by
  rcases h with h | ⟨h, -⟩ <;> omega

theorem optextra_init (start goal : Cell) : OptExtra start (initState start goal) := by
  intro n hn
  simp [initState] at hn

/-- On the open grid, the node of every popped entry already carries its
optimal g-score. If it did not, some prefix of the monotone staircase from
start to it would end at a closed cell with an unclosed successor, whose open
entry would have a strictly smaller f-score than the popped entry. -/
theorem pop_opt {isW : Cell → Bool} {start goal : Cell} {W H : ℕ} {st : AState}
    {e : Entry} {rest : List Entry}
    (hWiff : ∀ c : Cell, isW c = false ↔
      (0 ≤ c.1 ∧ c.1 < (W : ℤ) ∧ 0 ≤ c.2 ∧ c.2 < (H : ℤ)))
    (hstart : isW start = false)
    (hinv : AInv isW start goal st) (hexp : ExpInv isW st)
    (hopt : OptExtra start st)
    (hpop : popMin st.openset = some (e, rest)) :
    alookup e.2.2 st.gScore = some (heuristic start e.2.2) := by
  by_cases hc : e.2.2 ∈ st.closed
  · exact hopt _ hc
  obtain ⟨hemem, -, hemin⟩ := popMin_spec hpop
  obtain ⟨k, hk, hkle⟩ := hinv.open_stale e hemem
  obtain ⟨L, hLle, hchain⟩ := chain_exists hinv k e.2.2 hk
  have hreach := chain_reach hinv hchain ⟨k, hk⟩
  have hlow : heuristic start e.2.2 ≤ k := le_trans (reach_manhattan hreach) hLle
  have hnB : 0 ≤ e.2.2.1 ∧ e.2.2.1 < (W : ℤ) ∧ 0 ≤ e.2.2.2 ∧ e.2.2.2 < (H : ℤ) := by
    rcases hinv.g_walk _ _ hk with h | h
    · rw [h]; exact (hWiff start).mp hstart
    · exact (hWiff _).mp h
  have hsB := (hWiff start).mp hstart
  have hPD : stair start e.2.2 (heuristic start e.2.2) ∉ st.closed := by
    rw [stair_last]; exact hc
  have hex : ∃ j, stair start e.2.2 j ∉ st.closed := ⟨heuristic start e.2.2, hPD⟩
  have hjle : Nat.find hex ≤ heuristic start e.2.2 := Nat.find_le hPD
  have hjspec : stair start e.2.2 (Nat.find hex) ∉ st.closed := Nat.find_spec hex
  have hhigh : k ≤ heuristic start e.2.2 := by
    cases hjcase : Nat.find hex with
    | zero =>
      rw [hjcase, stair_zero] at hjspec
      obtain ⟨es, hesmem, hesn, hesf⟩ := hinv.open_good start 0 hinv.g_start hjspec
      have hle := entLE_fst (hemin es hesmem)
      have htri := heuristic_triangle start e.2.2 goal
      omega
    | succ j =>
      rw [hjcase] at hjspec hjle
      have hjcl : stair start e.2.2 j ∈ st.closed :=
        not_not.mp (Nat.find_min hex (show j < Nat.find hex by omega))
      have hgp : alookup (stair start e.2.2 j) st.gScore = some j := by
        have hj := hopt _ hjcl
        rwa [stair_h1 start e.2.2 j (by omega)] at hj
      obtain ⟨d, hd, hdeq⟩ := stair_adj start e.2.2 j hjle
      have hmW : isW (stair start e.2.2 (j + 1)) = false :=
        (hWiff _).mpr (stair_inb start e.2.2 hsB hnB (j + 1) hjle)
      have hexp' := hexp (stair start e.2.2 j) hjcl d hd
      rw [← hdeq] at hexp'
      obtain ⟨km, gp, hkm, hgp', hkmle⟩ := hexp' hmW hjspec
      have hgpj : gp = j := by rw [hgp] at hgp'; injection hgp' with hh; exact hh.symm
      obtain ⟨em, hemmem, hemn, hemf⟩ := hinv.open_good _ km hkm hjspec
      have hle := entLE_fst (hemin em hemmem)
      have hmn : heuristic (stair start e.2.2 (j + 1)) e.2.2 =
          heuristic start e.2.2 - (j + 1) := stair_h2 start e.2.2 (j + 1) hjle
      have htri := heuristic_triangle (stair start e.2.2 (j + 1)) e.2.2 goal
      omega
  rw [hk]
  have heq : k = heuristic start e.2.2 := le_antisymm hhigh hlow
  rw [heq]

/-- On a world whose walkability is exactly in-bounds membership, any
non-empty result of the loop is a shortest path: its length is one more than
the Manhattan distance from start to goal. -/
theorem astarLoop_opt {isW : Cell → Bool} {start goal : Cell} {W H : ℕ}
    (hWiff : ∀ c : Cell, isW c = false ↔
      (0 ≤ c.1 ∧ c.1 < (W : ℤ) ∧ 0 ≤ c.2 ∧ c.2 < (H : ℤ)))
    (hstart : isW start = false) :
    ∀ fuel (st : AState) (r : List Cell),
      AInv isW start goal st → ExpInv isW st → OptExtra start st →
      astarLoop isW goal fuel st = some r → r ≠ [] →
      r.length = heuristic start goal + 1 := by
  intro fuel
  induction fuel with
  | zero => intro st r _ _ _ h _; simp [astarLoop] at h
  | succ m ih =>
    intro st r hinv hexp hopt h hne
    rw [astarLoop] at h
    cases hpop : popMin st.openset with
    | none =>
      rw [hpop] at h
      have hr : r = [] := by injection h with h; exact h.symm
      exact absurd hr hne
    | some pr =>
      obtain ⟨e, rest⟩ := pr
      rw [hpop] at h
      dsimp only at h
      by_cases hg : e.2.2 = goal
      · rw [if_pos hg] at h
        have hr : r = reconstructPath st.cameFrom e.2.2 := by
          injection h with h; exact h.symm
        have hgopt := pop_opt hWiff hstart hinv hexp hopt hpop
        rw [hg] at hgopt hr
        obtain ⟨L, hLle, hchain⟩ := chain_exists hinv _ goal hgopt
        have hreach := chain_reach hinv hchain ⟨_, hgopt⟩
        have hLlow : heuristic start goal ≤ L := reach_manhattan hreach
        have hLeq : L = heuristic start goal := by omega
        have hLb := chain_le_cf_length hinv hchain hgopt
        obtain ⟨hlen, -, -⟩ :=
          cfList_spec hinv hchain ⟨_, hgopt⟩ (st.cameFrom.length + 1) (by omega)
        rw [hr, reconstructPath_eq, List.length_reverse, hlen, hLeq]
      · rw [if_neg hg] at h
        by_cases hc : e.2.2 ∈ st.closed
        · rw [if_pos (decide_eq_true hc)] at h
          exact ih _ r (ainv_skip hinv hpop hc) (expinv_skip hexp) hopt h hne
        · rw [if_neg (by simpa using hc)] at h
          obtain ⟨hinvF, hexpF⟩ := ainv_expand hinv hexp hpop hc hg
          have hgcur := pop_opt hWiff hstart hinv hexp hopt hpop
          have hoptF : OptExtra start
              (dirs.foldl (relax isW goal e.2.2.1 e.2.2.2
                  ((alookup e.2.2 st.gScore).getD 0))
                { st with openset := rest, closed := e.2.2 :: st.closed }) := by
            intro n hn
            rw [foldl_relax_closed_eq] at hn
            rw [foldl_relax_g_closed _ _ _ _ _ _ _ hn]
            rcases List.mem_cons.mp hn with rfl | hn'
            · exact hgcur
            · exact hopt n hn'
          exact ih _ r hinvF hexpF hoptF h hne

/-- C6: A* optimality on an open grid. For every obstacle-free `W x H` grid
and every pair of in-bounds (hence walkable) cells start and goal,
`find_path` returns a sequence of cells whose length equals
`1 + Manhattan(start, goal)`. -/
theorem c6_open_grid_optimal (W H : ℕ) (start goal : Cell)
    (hs : 0 ≤ start.1 ∧ start.1 < (W : ℤ) ∧ 0 ≤ start.2 ∧ start.2 < (H : ℤ))
    (hg : 0 ≤ goal.1 ∧ goal.1 < (W : ℤ) ∧ 0 ≤ goal.2 ∧ goal.2 < (H : ℤ)) :
    (find_path start goal (openWorld W H)).length = 1 + heuristic start goal := by
  have hW : 0 < W := by
    obtain ⟨h1, h2, -, -⟩ := hs
    omega
  have hH : 0 < H := by
    obtain ⟨-, -, h3, h4⟩ := hs
    omega
  have hWiff := isWall_openWorld W H hW hH
  have hstart : (openWorld W H).is_wall (start.1 : ℚ) (start.2 : ℚ) = false :=
    (hWiff start).mpr hs
  have hgw : (openWorld W H).is_wall (goal.1 : ℚ) (goal.2 : ℚ) = false :=
    (hWiff goal).mpr hg
  obtain ⟨r, hr, hfp⟩ := find_path_run (openWorld W H) start goal hgw
  have hreach : Reaches (fun c : Cell => (openWorld W H).is_wall (c.1 : ℚ) (c.2 : ℚ))
      start goal := ⟨heuristic start goal, stair_reachN hWiff start goal hs hg⟩
  rcases astarLoop_sound (pathFuel (openWorld W H)) (initState start goal) r
      (ainv_init _ _ _) (expinv_init _ _ _) hr with
    ⟨hrnil, hnr⟩ | ⟨L, -, hlen, -, -, -, -⟩
  · exact absurd hreach hnr
  · have hne : r ≠ [] := by
      intro hh
      rw [hh] at hlen
      simp at hlen
    have hres := astarLoop_opt hWiff hstart (pathFuel (openWorld W H))
      (initState start goal) r (ainv_init _ _ _) (expinv_init _ _ _)
      (optextra_init _ _) hr hne
    rw [hfp, hres]
    omega

/-- C6, witness: the optimality theorem applied to the 3x2 open grid with
start (0,0) and goal (2,1), whose shortest path has 4 cells. -/
theorem c6_open_grid_optimal_witness :
    (find_path ((0, 0) : Cell) ((2, 1) : Cell) (openWorld 3 2)).length =
      1 + heuristic (0, 0) (2, 1) :=
  c6_open_grid_optimal 3 2 (0, 0) (2, 1) (by refine ⟨?_, ?_, ?_, ?_⟩ <;> decide)
    (by refine ⟨?_, ?_, ?_, ?_⟩ <;> decide)

end PyDoom
